import Mathlib

/-!
# Verification of the quantized-mesh terrain tile codec

A shallow embedding of `quantized_mesh_tile/terrain.py` (class `TerrainTile`)
together with proofs about its encoding/decoding pipeline.

The byte stream is modelled at the word level: every call to the low-level
`packEntry`/`unpackEntry` helpers (which live in the repository's `utils`
module, outside the sources given here, and are therefore modelled from the
spec) transfers one fixed-width word.  A `Token` records the struct format
character of the word together with its value, so that the 16-bit/32-bit
width choices of the tile format are visible in the model.  Integer words
are range-checked when packed, as `struct.pack` does; floating-point header
fields are modelled as rationals and are never rounded by the token model.
-/

namespace QmTile

/-- Struct format characters used by the tile layout
(`B` = uint8, `H` = uint16, `I` = uint32, `f` = float32, `d` = float64). -/
inductive Fmt where
  | B | H | I | f | d
deriving DecidableEq, Repr

/-- Python exception outcomes reachable in the embedded code. -/
inductive Err where
  | structError
  | keyError
  | indexError
  | typeError
  | maskError
  | fileExistsError
deriving DecidableEq, Repr

/-- One fixed-width word of the serialized stream: an integer word of a given
format, or a floating-point word (modelled exactly as a rational). -/
inductive Token where
  | int (fmt : Fmt) (v : ℤ)
  | flt (fmt : Fmt) (v : ℚ)
deriving DecidableEq, Repr

/-- Exclusive upper bound of each unsigned integer format
(float formats admit no integer packing here). -/
def intMax : Fmt → ℤ
  | .B => 256
  | .H => 65536
  | .I => 4294967296
  | _ => 0

/-- Modelled from the spec: `packEntry` for integer words — pack one unsigned
word of format `fmt`; out-of-range values raise `struct.error`, as
`struct.pack` does. -/
def packEntry (fmt : Fmt) (v : ℤ) : Except Err Token :=
  if 0 ≤ v ∧ v < intMax fmt then .ok (.int fmt v) else .error .structError

/-- Modelled from the spec: `packEntry` for floating-point words (the header
fields).  Modelled exactly: no rounding, and `struct.pack` accepts any
finite float. -/
def packFloat (fmt : Fmt) (v : ℚ) : Token := .flt fmt v

/-- Modelled from the spec: `unpackEntry` for integer words — consume one
word from the stream.  A missing word is a truncated stream and a word of a
different width is a stream misalignment; both surface as `struct.error`. -/
def unpackInt (fmt : Fmt) : List Token → Except Err (ℤ × List Token)
  | .int g v :: rest => if g = fmt then .ok (v, rest) else .error .structError
  | _ => .error .structError

/-- Modelled from the spec: `unpackEntry` for floating-point words. -/
def unpackFlt (fmt : Fmt) : List Token → Except Err (ℚ × List Token)
  | .flt g v :: rest => if g = fmt then .ok (v, rest) else .error .structError
  | _ => .error .structError

/-- Modelled from the spec (§4.2): zigzag encoding,
`zigzag(n) = (n << 1) XOR (n >> 31)` on 32-bit signed integers; on the
16-bit quantized range used by this format this equals the closed form
below. -/
def zigZagEncode (n : ℤ) : ℤ :=
  if 0 ≤ n then 2 * n else -2 * n - 1

/-- Modelled from the spec (§4.2): zigzag decoding,
`unzigzag(z) = (z >> 1) XOR -(z AND 1)`; closed form for the nonnegative
words produced by unpacking. -/
def zigZagDecode (z : ℤ) : ℤ :=
  if z % 2 = 0 then z / 2 else -((z + 1) / 2)

theorem zigZag_roundtrip (n : ℤ) : zigZagDecode (zigZagEncode n) = n := by
  unfold zigZagEncode zigZagDecode
  rcases le_or_lt 0 n with h | h
  · simp only [if_pos h]
    have h2 : (2 * n) % 2 = 0 := by omega
    simp only [if_pos h2]
    omega
  · have hn : ¬ (0 ≤ n) := by omega
    simp only [if_neg hn]
    have h2 : (-2 * n - 1) % 2 ≠ 0 := by omega
    simp only [if_neg h2]
    omega

/-- Modelled from the spec (§4.3): high-water-mark index encoding, running
state `hi` (the water mark): emitted code is `hi - i`; a zero code bumps the
mark. -/
def encodeIndicesFrom (hi : ℤ) : List ℤ → List ℤ
  | [] => []
  | i :: rest =>
      let code := hi - i
      code :: encodeIndicesFrom (if code = 0 then hi + 1 else hi) rest

/-- Modelled from the spec: `encodeIndices` — high-water-mark encoding
starting from mark 0. -/
def encodeIndices (l : List ℤ) : List ℤ := encodeIndicesFrom 0 l

/-- Modelled from the spec (§4.3): high-water-mark decoding from a given
mark. -/
def decodeIndicesFrom (hi : ℤ) : List ℤ → List ℤ
  | [] => []
  | c :: rest =>
      (hi - c) :: decodeIndicesFrom (if c = 0 then hi + 1 else hi) rest

/-- Modelled from the spec: `decodeIndices` — high-water-mark decoding
starting from mark 0. -/
def decodeIndices (l : List ℤ) : List ℤ := decodeIndicesFrom 0 l

theorem hwm_roundtrip_from (l : List ℤ) :
    ∀ hi : ℤ, decodeIndicesFrom hi (encodeIndicesFrom hi l) = l := by
  induction l with
  | nil => intro hi; rfl
  | cons i rest ih =>
      intro hi
      simp only [encodeIndicesFrom, decodeIndicesFrom, List.cons.injEq]
      exact ⟨by omega, ih _⟩

theorem hwm_roundtrip (l : List ℤ) : decodeIndices (encodeIndices l) = l :=
  hwm_roundtrip_from l 0

/-- High-water-mark validity check from a given mark: every raw index is
nonnegative and does not exceed the running mark (this is exactly the
condition under which every emitted code is nonnegative). -/
def hwmChkFrom (hi : ℤ) : List ℤ → Bool
  | [] => true
  | i :: rest =>
      decide (0 ≤ i) && decide (i ≤ hi) &&
        hwmChkFrom (if hi - i = 0 then hi + 1 else hi) rest

/-- High-water-mark validity of a raw index sequence. -/
def hwmChk (l : List ℤ) : Bool := hwmChkFrom 0 l

/-- Codes emitted from a valid sequence with all indices below `n` stay in
`[0, n]` when the initial mark is at most `n`. -/
theorem hwm_codes_bounded (l : List ℤ) :
    ∀ hi n : ℤ, hwmChkFrom hi l = true → (∀ i ∈ l, i < n) → hi ≤ n →
      ∀ c ∈ encodeIndicesFrom hi l, 0 ≤ c ∧ c ≤ n := by
  induction l with
  | nil => intro hi n _ _ _ c hc; simp [encodeIndicesFrom] at hc
  | cons i rest ih =>
      intro hi n hchk hlt hhi c hc
      simp only [hwmChkFrom, Bool.and_eq_true, decide_eq_true_eq] at hchk
      obtain ⟨⟨h0, hle⟩, hrest⟩ := hchk
      simp only [encodeIndicesFrom, List.mem_cons] at hc
      rcases hc with rfl | hc
      · constructor
        · omega
        · have := hlt i (by simp)
          omega
      · refine ih _ n hrest (fun j hj => hlt j (by simp [hj])) ?_ c hc
        have := hlt i (by simp)
        split <;> omega

/-- The twelve header fields of `TerrainTile.quantizedMeshHeader`, in their
fixed serialization order, with their format characters recorded by
`headerTokens`. -/
structure QmHeader where
  centerX : ℚ
  centerY : ℚ
  centerZ : ℚ
  minimumHeight : ℚ
  maximumHeight : ℚ
  boundingSphereCenterX : ℚ
  boundingSphereCenterY : ℚ
  boundingSphereCenterZ : ℚ
  boundingSphereRadius : ℚ
  horizonOcclusionPointX : ℚ
  horizonOcclusionPointY : ℚ
  horizonOcclusionPointZ : ℚ
deriving DecidableEq, Repr

/-- The all-zero header installed by `TerrainTile.__init__`. -/
def zeroHeader : QmHeader :=
  ⟨0, 0, 0, 0, 0, 0, 0, 0, 0, 0, 0, 0⟩

/-- Header serialization: the loop
`for k, v in TerrainTile.quantizedMeshHeader.items(): f.write(packEntry(v, self.header[k]))`
of `_writeTo`, with the format of each field as in `quantizedMeshHeader`
(`d` everywhere except `f` for the two height fields). -/
def headerTokens (h : QmHeader) : List Token :=
  [packFloat .d h.centerX, packFloat .d h.centerY, packFloat .d h.centerZ,
   packFloat .f h.minimumHeight, packFloat .f h.maximumHeight,
   packFloat .d h.boundingSphereCenterX, packFloat .d h.boundingSphereCenterY,
   packFloat .d h.boundingSphereCenterZ, packFloat .d h.boundingSphereRadius,
   packFloat .d h.horizonOcclusionPointX, packFloat .d h.horizonOcclusionPointY,
   packFloat .d h.horizonOcclusionPointZ]

/-- Header parsing: the loop
`for k, v in TerrainTile.quantizedMeshHeader.items(): self.header[k] = unpackEntry(f, v)`
of `fromBytesIO`. -/
def readHeader (s : List Token) : Except Err (QmHeader × List Token) := do
  let (cx, s) ← unpackFlt .d s
  let (cy, s) ← unpackFlt .d s
  let (cz, s) ← unpackFlt .d s
  let (mnh, s) ← unpackFlt .f s
  let (mxh, s) ← unpackFlt .f s
  let (bx, s) ← unpackFlt .d s
  let (bby, s) ← unpackFlt .d s
  let (bz, s) ← unpackFlt .d s
  let (br, s) ← unpackFlt .d s
  let (ox, s) ← unpackFlt .d s
  let (oy, s) ← unpackFlt .d s
  let (oz, s) ← unpackFlt .d s
  pure (⟨cx, cy, cz, mnh, mxh, bx, bby, bz, br, ox, oy, oz⟩, s)

/-- Keys of the index/edge schema dictionaries `indexData16/32` and
`EdgeIndices16/32`. -/
inductive MetaKey where
  | triangleCount
  | indicesKey
  | westVertexCount | westIndices
  | southVertexCount | southIndices
  | eastVertexCount | eastIndices
  | northVertexCount | northIndices
deriving DecidableEq, Repr

/-- `TerrainTile.indexData16`: triangle block schema, 16-bit index words.
A `none` result is a Python `KeyError` on lookup. -/
def indexData16 : MetaKey → Option Fmt
  | .triangleCount => some .I
  | .indicesKey => some .H
  | _ => none

/-- `TerrainTile.indexData32`: triangle block schema, 32-bit index words. -/
def indexData32 : MetaKey → Option Fmt
  | .triangleCount => some .I
  | .indicesKey => some .I
  | _ => none

/-- `TerrainTile.EdgeIndices16`: edge block schema, 16-bit index words. -/
def EdgeIndices16 : MetaKey → Option Fmt
  | .westVertexCount => some .I
  | .westIndices => some .H
  | .southVertexCount => some .I
  | .southIndices => some .H
  | .eastVertexCount => some .I
  | .eastIndices => some .H
  | .northVertexCount => some .I
  | .northIndices => some .H
  | _ => none

/-- `TerrainTile.EdgeIndices32`: edge block schema, 32-bit index words. -/
def EdgeIndices32 : MetaKey → Option Fmt
  | .westVertexCount => some .I
  | .westIndices => some .I
  | .southVertexCount => some .I
  | .southIndices => some .I
  | .eastVertexCount => some .I
  | .eastIndices => some .I
  | .northVertexCount => some .I
  | .northIndices => some .I
  | _ => none

/-- `TerrainTile.BYTESPLIT`: the 16-bit/32-bit index width threshold. -/
def BYTESPLIT : ℤ := 65636

/-- `TILEPXS`: number of pixels of a 256 x 256 watermask grid. -/
def TILEPXS : ℤ := 65536

/-- Pack an integer word through a schema dictionary entry; a missing key is
a Python `KeyError`. -/
def packKey (meta : MetaKey → Option Fmt) (k : MetaKey) (v : ℤ) :
    Except Err Token :=
  match meta k with
  | none => .error .keyError
  | some fmt => packEntry fmt v

/-- Unpack an integer word through a schema dictionary entry; a missing key
is a Python `KeyError`. -/
def unpackKey (meta : MetaKey → Option Fmt) (k : MetaKey) (s : List Token) :
    Except Err (ℤ × List Token) :=
  match meta k with
  | none => .error .keyError
  | some fmt => unpackInt fmt s

/-- The state of a `TerrainTile` object: geographic bounds, header, the
quantized vertex arrays, triangle indices, the four edge index lists, and
the two extension payloads with their flags.  A watermask byte is an
`Option ℤ` because the source tolerates (and patches) a `None` entry. -/
structure Tile where
  west : ℚ
  east : ℚ
  south : ℚ
  north : ℚ
  header : QmHeader
  u : List ℤ
  v : List ℤ
  h : List ℤ
  indices : List ℤ
  westI : List ℤ
  southI : List ℤ
  eastI : List ℤ
  northI : List ℤ
  vLight : List (ℚ × ℚ × ℚ)
  watermask : List (List (Option ℤ))
  hasLighting : Bool
  hasWatermask : Bool
deriving DecidableEq, Repr

/-- A tile as produced by `TerrainTile()` with default arguments: default
bounds, zero header, empty arrays, no extensions.  (The Python constructor
leaves `hasLighting` unset until a read or build populates it; the flag is
modelled as `false`.) -/
def freshTile : Tile :=
  { west := -1, east := 1, south := -1, north := 1
    header := zeroHeader
    u := [], v := [], h := []
    indices := []
    westI := [], southI := [], eastI := [], northI := []
    vLight := [], watermask := []
    hasLighting := false, hasWatermask := false }

/-- The delta loop of the vertex section of `_writeTo`:
`for i in range(0, vertexCount - 1): f.write(packEntry('H', zigZagEncode(xs[i+1] - xs[i])))`,
driven by the loop counter (first argument), raising `IndexError` when the
stream being encoded is shorter than `vertexCount`.  Elements beyond the
loop bound are ignored, as in the source. -/
def packDeltas : ℕ → ℤ → List ℤ → Except Err (List Token)
  | 0, _, _ => .ok []
  | _ + 1, _, [] => .error .indexError
  | k + 1, prev, x :: rest => do
      let tok ← packEntry .H (zigZagEncode (x - prev))
      let toks ← packDeltas k x rest
      pure (tok :: toks)

/-- The vertex stream writer of `_writeTo` for one coordinate array: the
initial word is `zigZagEncode(xs[0])` (an `IndexError` on an empty array),
followed by `vertexCount - 1` delta words. -/
def packVertexStream (n : ℕ) (xs : List ℤ) : Except Err (List Token) :=
  match xs with
  | [] => .error .indexError
  | x :: rest => do
      let t0 ← packEntry .H (zigZagEncode x)
      let toks ← packDeltas (n - 1) x rest
      pure (t0 :: toks)

/-- `TerrainTile._iterUnpackAndDecodeVertices`: read `n` words, zigzag
decode each and accumulate the running sum starting from `delta`. -/
def readVertexStream : List Token → ℕ → ℤ → Except Err (List ℤ × List Token)
  | s, 0, _ => .ok ([], s)
  | s, k + 1, delta => do
      let (w, s) ← unpackInt .H s
      let d := delta + zigZagDecode w
      let (ds, s) ← readVertexStream s k d
      pure (d :: ds, s)

/-- `TerrainTile._iterUnpackIndices` plus the surrounding append loops:
read `n` plain words of format `fmt`. -/
def readPlainList (fmt : Fmt) : List Token → ℕ → Except Err (List ℤ × List Token)
  | s, 0 => .ok ([], s)
  | s, k + 1 => do
      let (w, s) ← unpackInt fmt s
      let (ws, s) ← readPlainList fmt s k
      pure (w :: ws, s)

/-- `packIndices` / the edge writing loops of `_writeTo`: pack every element
of a list as one word of format `fmt`. -/
def packPlainList (fmt : Fmt) : List ℤ → Except Err (List Token)
  | [] => .ok []
  | x :: rest => do
      let tok ← packEntry fmt x
      let toks ← packPlainList fmt rest
      pure (tok :: toks)

theorem unpackInt_cons (fmt : Fmt) (v : ℤ) (r : List Token) :
    unpackInt fmt (.int fmt v :: r) = .ok (v, r) := by
  simp [unpackInt]

theorem unpackFlt_cons (fmt : Fmt) (v : ℚ) (r : List Token) :
    unpackFlt fmt (.flt fmt v :: r) = .ok (v, r) := by
  simp [unpackFlt]

theorem readHeader_of_tokens (h : QmHeader) (r : List Token) :
    readHeader (headerTokens h ++ r) = .ok (h, r) := by
  simp [readHeader, headerTokens, packFloat, unpackFlt, Bind.bind, Except.bind, pure,
    Except.pure]

theorem zigZagEncode_range (d : ℤ) (h1 : -32768 ≤ d) (h2 : d ≤ 32767) :
    0 ≤ zigZagEncode d ∧ zigZagEncode d < 65536 := by
  unfold zigZagEncode
  split <;> omega

theorem packDeltas_read (xs : List ℤ) :
    ∀ prev : ℤ,
      (∀ x ∈ xs, 0 ≤ x ∧ x ≤ 32767) → 0 ≤ prev → prev ≤ 32767 →
      ∃ toks, packDeltas xs.length prev xs = .ok toks ∧
        ∀ r, readVertexStream (toks ++ r) xs.length prev = .ok (xs, r) := by
  induction xs with
  | nil =>
      intro prev _ _ _
      exact ⟨[], rfl, fun r => rfl⟩
  | cons x rest ih =>
      intro prev hmem h0 h1
      have hx := hmem x (by simp)
      have hzz := zigZagEncode_range (x - prev) (by omega) (by omega)
      have hpack : packEntry .H (zigZagEncode (x - prev)) =
          .ok (.int .H (zigZagEncode (x - prev))) := by
        unfold packEntry
        rw [if_pos]
        exact ⟨hzz.1, by simpa [intMax] using hzz.2⟩
      obtain ⟨toks, hok, hread⟩ :=
        ih x (fun y hy => hmem y (by simp [hy])) hx.1 hx.2
      refine ⟨.int .H (zigZagEncode (x - prev)) :: toks, ?_, ?_⟩
      · simp only [List.length_cons, packDeltas, hpack, hok, Bind.bind, Except.bind]
        rfl
      · intro r
        have hx' : prev + (x - prev) = x := by ring
        simp only [List.length_cons, readVertexStream, List.cons_append,
          unpackInt_cons, Bind.bind, Except.bind, zigZag_roundtrip, hx', hread r,
          pure, Except.pure]

theorem packVertexStream_read (xs : List ℤ) (hne : xs ≠ [])
    (hmem : ∀ x ∈ xs, 0 ≤ x ∧ x ≤ 32767) :
    ∃ toks, packVertexStream xs.length xs = .ok toks ∧
      ∀ r, readVertexStream (toks ++ r) xs.length 0 = .ok (xs, r) := by
  match xs, hne with
  | x :: rest, _ =>
      have hx := hmem x (by simp)
      have hzz := zigZagEncode_range x (by omega) (by omega)
      have hpack : packEntry .H (zigZagEncode x) = .ok (.int .H (zigZagEncode x)) := by
        unfold packEntry
        rw [if_pos]
        exact ⟨hzz.1, by simpa [intMax] using hzz.2⟩
      obtain ⟨toks, hok, hread⟩ :=
        packDeltas_read rest x (fun y hy => hmem y (by simp [hy])) hx.1 hx.2
      refine ⟨.int .H (zigZagEncode x) :: toks, ?_, ?_⟩
      · simp only [packVertexStream, List.length_cons, Nat.add_sub_cancel, hpack, hok,
          Bind.bind, Except.bind]
        rfl
      · intro r
        simp only [List.length_cons, readVertexStream, List.cons_append,
          unpackInt_cons, Bind.bind, Except.bind, zigZag_roundtrip, zero_add, hread r,
          pure, Except.pure]

theorem packPlainList_read (fmt : Fmt) (xs : List ℤ)
    (hmem : ∀ x ∈ xs, 0 ≤ x ∧ x < intMax fmt) :
    ∃ toks, packPlainList fmt xs = .ok toks ∧
      ∀ r, readPlainList fmt (toks ++ r) xs.length = .ok (xs, r) := by
  induction xs with
  | nil => exact ⟨[], rfl, fun r => rfl⟩
  | cons x rest ih =>
      have hx := hmem x (by simp)
      have hpack : packEntry fmt x = .ok (.int fmt x) := by
        unfold packEntry
        rw [if_pos hx]
      obtain ⟨toks, hok, hread⟩ := ih (fun y hy => hmem y (by simp [hy]))
      refine ⟨.int fmt x :: toks, ?_, ?_⟩
      · simp only [packPlainList, hpack, hok, Bind.bind, Except.bind]
        rfl
      · intro r
        simp only [List.length_cons, readPlainList, List.cons_append,
          unpackInt_cons, Bind.bind, Except.bind, hread r, pure, Except.pure]

theorem packPlainList_append_bad (fmt : Fmt) (xs : List ℤ) (y : ℤ) (ys : List ℤ)
    (hmem : ∀ x ∈ xs, 0 ≤ x ∧ x < intMax fmt)
    (hy : ¬ (0 ≤ y ∧ y < intMax fmt)) :
    packPlainList fmt (xs ++ y :: ys) = .error .structError := by
  induction xs with
  | nil =>
      simp only [List.nil_append, packPlainList, packEntry, if_neg hy, Bind.bind,
        Except.bind]
  | cons x rest ih =>
      have hx := hmem x (by simp)
      have hpack : packEntry fmt x = .ok (.int fmt x) := by
        unfold packEntry
        rw [if_pos hx]
      have ih' := ih (fun z hz => hmem z (by simp [hz]))
      simp only [List.cons_append, packPlainList, hpack, Bind.bind, Except.bind]
      simp only [List.append_eq] at ih' ⊢
      rw [ih']

/-- Python 3 `round` on a rational: round half to even, then `int()` of the
already-integral result. -/
def pyRound (x : ℚ) : ℤ :=
  let fl := ⌊x⌋
  let r := x - (fl : ℚ)
  if r < 1/2 then fl
  else if 1/2 < r then fl + 1
  else if fl % 2 = 0 then fl else fl + 1

/-- Sign helper of the octahedral codec (nonnegative values count as
positive). -/
def signQ (x : ℚ) : ℚ := if x < 0 then -1 else 1

/-- Modelled from the spec (§4.4): `octEncode` — L1-normalize, fold the
lower hemisphere, then map each component from `[-1, 1]` to a byte.
A zero input vector (division by zero in Python) is not modelled and never
arises in the theorems below. -/
def octEncode (w : ℚ × ℚ × ℚ) : ℤ × ℤ :=
  let s := |w.1| + |w.2.1| + |w.2.2|
  let x := w.1 / s
  let y := w.2.1 / s
  let z := w.2.2 / s
  let xy := if z < 0 then ((1 - |y|) * signQ x, (1 - |x|) * signQ y) else (x, y)
  (pyRound ((xy.1 * (1/2) + 1/2) * 255), pyRound ((xy.2 * (1/2) + 1/2) * 255))

/-- Modelled from the spec (§4.4): `octDecode` — map the two bytes back to
`[-1, 1]`, reconstruct `z`, unfold the lower hemisphere.  The final
renormalization to unit length of the spec involves a square root and is
omitted; no claim below compares decoded normal values. -/
def octDecode (a b : ℤ) : ℚ × ℚ × ℚ :=
  let x : ℚ := (a : ℚ) / 255 * 2 - 1
  let y : ℚ := (b : ℚ) / 255 * 2 - 1
  let z : ℚ := 1 - |x| - |y|
  if z < 0 then ((1 - |y|) * signQ x, (1 - |x|) * signQ y, z) else (x, y, z)

/-- The token stream of the oct-encoded per-vertex normal pairs. -/
def lightToks : List (ℚ × ℚ × ℚ) → List Token
  | [] => []
  | w :: rest =>
      .int .B (octEncode w).1 :: .int .B (octEncode w).2 :: lightToks rest

/-- What the per-vertex lighting data becomes after one encode/decode
cycle: each normal goes through the octahedral codec. -/
def lightRoundTrip (l : List (ℚ × ℚ × ℚ)) : List (ℚ × ℚ × ℚ) :=
  l.map (fun w => octDecode (octEncode w).1 (octEncode w).2)

/-- The per-vertex loop of the lighting extension of `_writeTo`:
`for i in range(0, vertexCount): x, y = octEncode(self.vLight[i]); ...`,
driven by the loop counter, raising `IndexError` when `vLight` is shorter
than `vertexCount`. -/
def packLightPairs : ℕ → List (ℚ × ℚ × ℚ) → Except Err (List Token)
  | 0, _ => .ok []
  | _ + 1, [] => .error .indexError
  | k + 1, w :: rest => do
      let t1 ← packEntry .B (octEncode w).1
      let t2 ← packEntry .B (octEncode w).2
      let ts ← packLightPairs k rest
      pure (t1 :: t2 :: ts)

/-- The lighting extension block of `_writeTo` (lines 676-688): when
`vLight` is nonempty, set `hasLighting = True` on the tile, then write
extension id 1, length `2 * vertexCount`, and the oct-encoded pairs.
Returns the tokens (or the raised error) together with the tile state after
the block. -/
def writeLightSection (t : Tile) : Except Err (List Token) × Tile :=
  match t.vLight with
  | [] => (.ok [], t)
  | _ =>
      let t' := { t with hasLighting := true }
      let res : Except Err (List Token) := do
        let idTok ← packEntry .B 1
        let lenTok ← packEntry .I (2 * (t.u.length : ℤ))
        let pairs ← packLightPairs t.u.length t.vLight
        pure (idTok :: lenTok :: pairs)
      (res, t')

/-- The inner value loop of the watermask grid path of `_writeTo`:
`for y in x: f.write(packEntry('B', int(y)))`; `int(None)` is a
`TypeError`. -/
def packMaskValues : List (Option ℤ) → Except Err (List Token)
  | [] => .ok []
  | none :: _ => .error .typeError
  | some b :: rest => do
      let tok ← packEntry .B b
      let toks ← packMaskValues rest
      pure (tok :: toks)

/-- The row loop of the watermask grid path of `_writeTo`: each row must
have exactly 256 columns (`Exception` otherwise), rows are written from
north to south. -/
def packMaskRows : List (List (Option ℤ)) → Except Err (List Token)
  | [] => .ok []
  | row :: rest =>
      if row.length = 256 then do
        let a ← packMaskValues row
        let bs ← packMaskRows rest
        pure (a ++ bs)
      else .error .maskError

/-- The watermask extension block of `_writeTo` (lines 690-720): when
`watermask` is nonempty, set `hasWatermask = True`; with more than one row
write a 256 x 256 grid (length `TILEPXS`), with a single row write the
single byte `watermask[0][0]`, first patching a `None` entry to `0` in
place (the one state mutation of the uniform path).  Returns the tokens (or
the raised error) with the tile state after the block. -/
def writeMaskSection (t : Tile) : Except Err (List Token) × Tile :=
  match t.watermask with
  | [] => (.ok [], t)
  | row0 :: restRows =>
      let t' := { t with hasWatermask := true }
      if restRows.length + 1 > 1 then
        let res : Except Err (List Token) := do
          let idTok ← packEntry .B 2
          let lenTok ← packEntry .I TILEPXS
          if restRows.length + 1 = 256 then do
            let rows ← packMaskRows (row0 :: restRows)
            pure (idTok :: lenTok :: rows)
          else .error .maskError
        (res, t')
      else
        match row0 with
        | [] => (.error .indexError, t')
        | none :: tail =>
            let t'' := { t with hasWatermask := true,
                                watermask := [some 0 :: tail] }
            let res : Except Err (List Token) := do
              let idTok ← packEntry .B 2
              let lenTok ← packEntry .I 1
              let bTok ← packEntry .B 0
              pure [idTok, lenTok, bTok]
            (res, t'')
        | some b :: _ =>
            let res : Except Err (List Token) := do
              let idTok ← packEntry .B 2
              let lenTok ← packEntry .I 1
              let bTok ← packEntry .B b
              pure [idTok, lenTok, bTok]
            (res, t')

/-- Pack a list of words through a schema dictionary entry (`packIndices`
and the four edge loops of `_writeTo`). -/
def packKeyList (meta : MetaKey → Option Fmt) (k : MetaKey) (xs : List ℤ) :
    Except Err (List Token) :=
  match meta k with
  | none => .error .keyError
  | some fmt => packPlainList fmt xs

/-- Read `n` words through a schema dictionary entry. -/
def readKeyList (meta : MetaKey → Option Fmt) (k : MetaKey) (s : List Token)
    (n : ℕ) : Except Err (List ℤ × List Token) :=
  match meta k with
  | none => .error .keyError
  | some fmt => readPlainList fmt s n

/-- The extension-free part of `TerrainTile._writeTo` (lines 610-673):
header, vertex count, the three delta+zigzag coded vertex streams, the
high-water-mark coded triangle indices, and the four edge index blocks.
The index word width is 16-bit unless `vertexCount > BYTESPLIT`. -/
def writeCore (t : Tile) : Except Err (List Token) := do
  let n := t.u.length
  let vcTok ← packEntry .I (n : ℤ)
  let uT ← packVertexStream n t.u
  let vT ← packVertexStream n t.v
  let hT ← packVertexStream n t.h
  let imeta := if (n : ℤ) > BYTESPLIT then indexData32 else indexData16
  let tcTok ← packKey imeta .triangleCount ((t.indices.length / 3 : ℕ) : ℤ)
  let codesT ← packKeyList imeta .indicesKey (encodeIndices t.indices)
  let emeta := if (n : ℤ) > BYTESPLIT then EdgeIndices32 else EdgeIndices16
  let wcT ← packKey emeta .westVertexCount (t.westI.length : ℤ)
  let wT ← packKeyList emeta .westIndices t.westI
  let scT ← packKey emeta .southVertexCount (t.southI.length : ℤ)
  let sT ← packKeyList emeta .southIndices t.southI
  let ecT ← packKey emeta .eastVertexCount (t.eastI.length : ℤ)
  let eT ← packKeyList emeta .eastIndices t.eastI
  let ncT ← packKey emeta .northVertexCount (t.northI.length : ℤ)
  let nT ← packKeyList emeta .northIndices t.northI
  pure (headerTokens t.header ++ vcTok :: (uT ++ vT ++ hT ++
        tcTok :: codesT ++ wcT :: wT ++ scT :: sT ++ ecT :: eT ++ ncT :: nT))

/-- The control flow of `_writeTo`: the three section results in program
order — the first raised error aborts the call, leaving the tile in the
state reached so far; on success the sections' tokens are concatenated. -/
def seqSections (c : Except Err (List Token))
    (lp mp : Except Err (List Token) × Tile) (t : Tile) :
    Except Err (List Token) × Tile :=
  match c with
  | .error e => (.error e, t)
  | .ok core =>
      match lp.1 with
      | .error e => (.error e, lp.2)
      | .ok lt =>
          match mp.1 with
          | .error e => (.error e, mp.2)
          | .ok mt => (.ok (core ++ lt ++ mt), mp.2)

/-- `TerrainTile._writeTo`: the serialized token stream (or the raised
error), together with the tile state after the call — the light and
watermask blocks mutate the tile (`hasLighting`, `hasWatermask`, a `None`
uniform watermask byte); the watermask block sees the tile state left by
the light block. -/
def writeTo (t : Tile) : Except Err (List Token) × Tile :=
  seqSections (writeCore t) (writeLightSection t)
    (writeMaskSection (writeLightSection t).2) t

theorem writeTo_parts (t : Tile) :
    writeTo t = seqSections (writeCore t) (writeLightSection t)
      (writeMaskSection (writeLightSection t).2) t := rfl

theorem seqSections_ok (core lt mt : List Token) (t t1 t2 : Tile) :
    seqSections (.ok core) (.ok lt, t1) (.ok mt, t2) t =
      (.ok (core ++ lt ++ mt), t2) := rfl

theorem seqSections_err_core (e : Err) (lp mp : Except Err (List Token) × Tile)
    (t : Tile) : seqSections (.error e) lp mp t = (.error e, t) := rfl

theorem seqSections_err_light (core : List Token) (e : Err) (t t1 t2 : Tile)
    (mp : Except Err (List Token) × Tile) :
    seqSections (.ok core) (.error e, t1) mp t = (.error e, t1) := rfl

theorem seqSections_err_mask (core lt : List Token) (e : Err) (t t1 t2 : Tile) :
    seqSections (.ok core) (.ok lt, t1) (.error e, t2) t = (.error e, t2) := rfl

/-- `TerrainTile._iterUnpackAndDecodeLight` pair loop: read
`extensionLength / 2` pairs of bytes and oct-decode each. -/
def readLightPairs : List Token → ℕ → Except Err (List (ℚ × ℚ × ℚ) × List Token)
  | s, 0 => .ok ([], s)
  | s, k + 1 => do
      let (a, s) ← unpackInt .B s
      let (b, s) ← unpackInt .B s
      let (ws, s) ← readLightPairs s k
      pure (octDecode a b :: ws, s)

/-- The lighting extension reader of `fromBytesIO` (lines 380-390): read
the extension id; only when it equals 1 read the length and the payload —
any other id is silently skipped.  An odd payload length makes the Python
`while i != xyCount` loop run past the stream end (`xyCount` is a
non-integral float); that exhaustion surfaces as the truncation error. -/
def readLightExt (s : List Token) :
    Except Err (List (ℚ × ℚ × ℚ) × List Token) := do
  let (extId, s) ← unpackInt .B s
  if extId = 1 then do
    let (extLen, s) ← unpackInt .I s
    if extLen % 2 = 0 then readLightPairs s (extLen.toNat / 2)
    else .error .structError
  else pure ([], s)

/-- `TerrainTile._iterUnpackWatermaskRow` chunking: the decoded byte list is
yielded in rows of 256, with a final partial row if one remains. -/
def chunk256 (l : List ℤ) : List (List ℤ) :=
  match l with
  | [] => []
  | x :: rest => (x :: rest).take 256 :: chunk256 ((x :: rest).drop 256)
termination_by l.length
decreasing_by simp; omega

/-- The watermask extension reader of `fromBytesIO` (lines 392-399): read
the extension id; only when it equals 2 read the length and the payload
rows — any other id is silently skipped. -/
def readMaskExt (s : List Token) :
    Except Err (List (List (Option ℤ)) × List Token) := do
  let (extId, s) ← unpackInt .B s
  if extId = 2 then do
    let (extLen, s) ← unpackInt .I s
    let (bytes, s) ← readPlainList .B s extLen.toNat
    pure ((chunk256 bytes).map (fun row => row.map some), s)
  else pure ([], s)

/-- The decoded core sections of a tile stream: header, the three vertex
arrays, the triangle indices and the four edge index lists. -/
structure CoreData where
  header : QmHeader
  us : List ℤ
  vs : List ℤ
  hs : List ℤ
  inds : List ℤ
  ws : List ℤ
  ss : List ℤ
  es : List ℤ
  ns : List ℤ
deriving DecidableEq, Repr

/-- The extension-free part of `fromBytesIO` (lines 334-378): header,
vertex count, the three delta+zigzag coded vertex streams, the
high-water-mark coded triangle indices, and the four edge index blocks.
The index word width is 16-bit unless the parsed `vertexCount` exceeds
`BYTESPLIT`; the edge schema of the wide case is `indexData32` — not
`EdgeIndices32` — exactly as in the source (line 362). -/
def readCore (s : List Token) : Except Err (CoreData × List Token) := do
  let (hd, s) ← readHeader s
  let (vc, s) ← unpackInt .I s
  let n := vc.toNat
  let (us, s) ← readVertexStream s n 0
  let (vs, s) ← readVertexStream s n 0
  let (hs, s) ← readVertexStream s n 0
  let imeta := if vc > BYTESPLIT then indexData32 else indexData16
  let (tc, s) ← unpackKey imeta .triangleCount s
  let (codes, s) ← readKeyList imeta .indicesKey s (tc.toNat * 3)
  let inds := decodeIndices codes
  let emeta := if vc > BYTESPLIT then indexData32 else EdgeIndices16
  let (wc, s) ← unpackKey emeta .westVertexCount s
  let (ws, s) ← readKeyList emeta .westIndices s wc.toNat
  let (sc, s) ← unpackKey emeta .southVertexCount s
  let (ss, s) ← readKeyList emeta .southIndices s sc.toNat
  let (ec, s) ← unpackKey emeta .eastVertexCount s
  let (es, s) ← readKeyList emeta .eastIndices s ec.toNat
  let (nc, s) ← unpackKey emeta .northVertexCount s
  let (ns, s) ← readKeyList emeta .northIndices s nc.toNat
  pure (⟨hd, us, vs, hs, inds, ws, ss, es, ns⟩, s)

/-- `TerrainTile.fromBytesIO`: parse a tile from the stream into the tile
object `t` (header overwritten, vertex/edge/extension data appended,
`indices` assigned), returning the updated tile and the unread remainder of
the stream (the end-of-stream check of the source is commented out). -/
def fromBytesStream (s : List Token) (hasLighting hasWatermask : Bool)
    (t : Tile) : Except Err (Tile × List Token) := do
  let (c, s) ← readCore s
  let (light, s) ← if hasLighting then readLightExt s else pure ([], s)
  let (mask, s) ← if hasWatermask then readMaskExt s else pure ([], s)
  pure ({ t with
          hasLighting := hasLighting
          hasWatermask := hasWatermask
          header := c.header
          u := t.u ++ c.us, v := t.v ++ c.vs, h := t.h ++ c.hs
          indices := c.inds
          westI := t.westI ++ c.ws, southI := t.southI ++ c.ss
          eastI := t.eastI ++ c.es, northI := t.northI ++ c.ns
          vLight := t.vLight ++ light
          watermask := t.watermask ++ mask }, s)

/-- The stream written by a successful `_writeTo`, or the empty file content
left behind when encoding raises after the destination was opened. -/
def writtenContent (t : Tile) : List Token :=
  match (writeTo t).1 with
  | .ok toks => toks
  | .error _ => []

/-- The caller-visible outcome of writing tile `t`. -/
def writeOutcome (t : Tile) : Except Err Unit :=
  match (writeTo t).1 with
  | .ok _ => .ok ()
  | .error e => .error e

/-- `TerrainTile.toFile`: refuse to touch an existing destination
(`IOError('File ... already exists')`), otherwise create the file and write
the tile.  The filesystem is a map from paths to file contents; the gzip
envelope is out of scope per the spec and both branches write the same
token content. -/
def toFile (fs : ℕ → Option (List Token)) (path : ℕ) (t : Tile)
    (gzipped : Bool) : Except Err Unit × (ℕ → Option (List Token)) :=
  if (fs path).isSome then (.error .fileExistsError, fs)
  else (writeOutcome t, Function.update fs path (some (writtenContent t)))

/-- `TerrainTile.toOurFile`: identical to `toFile` but with the existence
check removed — the destination is (over)written unconditionally. -/
def toOurFile (fs : ℕ → Option (List Token)) (path : ℕ) (t : Tile)
    (gzipped : Bool) : Except Err Unit × (ℕ → Option (List Token)) :=
  (writeOutcome t, Function.update fs path (some (writtenContent t)))

/-- `TerrainTile.MAX`: the top of the quantized range. -/
def MAX : ℚ := 32767

/-- `TerrainTile.MIN`: the bottom of the quantized range. -/
def MIN : ℚ := 0

/-- The module-level `lerp(p, q, time)` helper. -/
def lerp (p q time : ℚ) : ℚ := (1 - time) * p + time * q

/-- `TerrainTile._getDeltaHeight` (the lazily cached value as a pure
function of the header). -/
def getDeltaHeight (t : Tile) : ℚ :=
  t.header.maximumHeight - t.header.minimumHeight

/-- `TerrainTile._quantizeHeight`: quantized height is defined as 0 on a
flat tile (zero height range), otherwise scale into `[0, MAX]` and round. -/
def quantizeHeight (t : Tile) (height : ℚ) : ℤ :=
  let deniv := getDeltaHeight t
  if deniv = 0 then 0
  else pyRound ((height - t.header.minimumHeight) * (MAX / deniv))

/-- The `_longs` list of `_computeVerticesCoordinates`. -/
def computeLongs (t : Tile) : List ℚ :=
  t.u.map (fun (q : ℤ) => lerp t.west t.east ((q : ℚ) / MAX))

/-- The `_lats` list of `_computeVerticesCoordinates`. -/
def computeLats (t : Tile) : List ℚ :=
  t.v.map (fun (q : ℤ) => lerp t.south t.north ((q : ℚ) / MAX))

/-- The `_heights` list of `_computeVerticesCoordinates`. -/
def computeHeights (t : Tile) : List ℚ :=
  t.h.map (fun (q : ℤ) =>
    lerp t.header.minimumHeight t.header.maximumHeight ((q : ℚ) / MAX))

/-- The pairing loop of `getVerticesCoordinates`: walk the longitudes and
index the parallel latitude/height lists; running past the end of either is
an `IndexError` (`none`).  Longer parallel lists are simply not exhausted,
as in the source. -/
def coordsZip : List ℚ → List ℚ → List ℚ → Option (List (ℚ × ℚ × ℚ))
  | [], _, _ => some []
  | l :: ls, la :: las, hh :: hs =>
      (coordsZip ls las hs).map (fun c => (l, la, hh) :: c)
  | _, _, _ => none

/-- `TerrainTile.getVerticesCoordinates` (with `_computeVerticesCoordinates`
inlined as a pure function of the freshly populated tile). -/
def getVerticesCoordinates (t : Tile) : Option (List (ℚ × ℚ × ℚ)) :=
  coordsZip (computeLongs t) (computeLats t) (computeHeights t)

/-- One iteration of the edge-detection loop of `fromTerrainTopology`
(lines 816-828): look up the vertex's quantized coordinates and append the
index to the west/east (resp. south/north) list exactly when the `if`/
`elif` chain of the source does. -/
def edgeStep (u v : List ℤ) (acc : List ℤ × List ℤ × List ℤ × List ℤ)
    (ind : ℤ) : List ℤ × List ℤ × List ℤ × List ℤ :=
  let x := u.getD ind.toNat 0
  let y := v.getD ind.toNat 0
  let w := acc.1
  let s := acc.2.1
  let e := acc.2.2.1
  let n := acc.2.2.2
  let we := if x = 0 ∧ ind ∉ w then (w ++ [ind], e)
            else if x = 32767 ∧ ind ∉ e then (w, e ++ [ind]) else (w, e)
  let sn := if y = 0 ∧ ind ∉ s then (s ++ [ind], n)
            else if y = 32767 ∧ ind ∉ n then (s, n ++ [ind]) else (s, n)
  (we.1, sn.1, we.2, sn.2)

/-- The edge-detection loop of `fromTerrainTopology` (lines 814-828): fold
`edgeStep` over the triangle index stream, starting from the empty edge
lists of a freshly constructed tile.  Result: `(westI, southI, eastI,
northI)`. -/
def buildEdges (indices u v : List ℤ) : List ℤ × List ℤ × List ℤ × List ℤ :=
  indices.foldl (edgeStep u v) ([], [], [], [])

/-- A watermask entry that is a genuine byte. -/
def byteOKb : Option ℤ → Bool
  | none => false
  | some b => decide (0 ≤ b) && decide (b < 256)

/-- Structural validity of the core tile data, as produced by a valid
non-empty topology: non-empty parallel vertex arrays of quantized values,
a triangle list in high-water-mark order referencing existing vertices, and
edge lists referencing existing vertices (with list lengths representable
as 32-bit counts). -/
def ValidCore (t : Tile) : Prop :=
  t.u ≠ [] ∧
  t.v.length = t.u.length ∧
  t.h.length = t.u.length ∧
  (∀ x ∈ t.u, 0 ≤ x ∧ x ≤ 32767) ∧
  (∀ x ∈ t.v, 0 ≤ x ∧ x ≤ 32767) ∧
  (∀ x ∈ t.h, 0 ≤ x ∧ x ≤ 32767) ∧
  t.indices.length % 3 = 0 ∧
  hwmChk t.indices = true ∧
  (∀ i ∈ t.indices, i < (t.u.length : ℤ)) ∧
  (t.indices.length : ℤ) < 3 * 4294967296 ∧
  (∀ j ∈ t.westI, 0 ≤ j ∧ j < (t.u.length : ℤ)) ∧
  (∀ j ∈ t.southI, 0 ≤ j ∧ j < (t.u.length : ℤ)) ∧
  (∀ j ∈ t.eastI, 0 ≤ j ∧ j < (t.u.length : ℤ)) ∧
  (∀ j ∈ t.northI, 0 ≤ j ∧ j < (t.u.length : ℤ)) ∧
  (t.westI.length : ℤ) < 4294967296 ∧
  (t.southI.length : ℤ) < 4294967296 ∧
  (t.eastI.length : ℤ) < 4294967296 ∧
  (t.northI.length : ℤ) < 4294967296

theorem packEntry_ok (fmt : Fmt) (v : ℤ) (h0 : 0 ≤ v) (h1 : v < intMax fmt) :
    packEntry fmt v = .ok (.int fmt v) := by
  unfold packEntry
  rw [if_pos ⟨h0, h1⟩]

theorem intMax_B : intMax .B = 256 := rfl

theorem intMax_H : intMax .H = 65536 := rfl

theorem intMax_I : intMax .I = 4294967296 := rfl

theorem BYTESPLIT_eq : BYTESPLIT = 65636 := rfl

theorem encodeIndicesFrom_length (l : List ℤ) :
    ∀ hi : ℤ, (encodeIndicesFrom hi l).length = l.length := by
  induction l with
  | nil => intro hi; rfl
  | cons i rest ih =>
      intro hi
      simp only [encodeIndicesFrom, List.length_cons, ih]

theorem exceptBind_ok {α β : Type} (a : α) (f : α → Except Err β) :
    (Bind.bind (Except.ok a) f : Except Err β) = f a := rfl

theorem exceptBind_err {α β : Type} (e : Err) (f : α → Except Err β) :
    (Bind.bind (Except.error e) f : Except Err β) = .error e := rfl

theorem exceptPure {α : Type} (a : α) :
    (pure a : Except Err α) = .ok a := rfl

theorem packKey_i16_tc (v : ℤ) :
    packKey indexData16 .triangleCount v = packEntry .I v := rfl

theorem packKeyList_i16 (xs : List ℤ) :
    packKeyList indexData16 .indicesKey xs = packPlainList .H xs := rfl

theorem packKey_e16_wc (v : ℤ) :
    packKey EdgeIndices16 .westVertexCount v = packEntry .I v := rfl

theorem packKey_e16_sc (v : ℤ) :
    packKey EdgeIndices16 .southVertexCount v = packEntry .I v := rfl

theorem packKey_e16_ec (v : ℤ) :
    packKey EdgeIndices16 .eastVertexCount v = packEntry .I v := rfl

theorem packKey_e16_nc (v : ℤ) :
    packKey EdgeIndices16 .northVertexCount v = packEntry .I v := rfl

theorem packKeyList_e16_w (xs : List ℤ) :
    packKeyList EdgeIndices16 .westIndices xs = packPlainList .H xs := rfl

theorem packKeyList_e16_s (xs : List ℤ) :
    packKeyList EdgeIndices16 .southIndices xs = packPlainList .H xs := rfl

theorem packKeyList_e16_e (xs : List ℤ) :
    packKeyList EdgeIndices16 .eastIndices xs = packPlainList .H xs := rfl

theorem packKeyList_e16_n (xs : List ℤ) :
    packKeyList EdgeIndices16 .northIndices xs = packPlainList .H xs := rfl

theorem unpackKey_i16_tc (s : List Token) :
    unpackKey indexData16 .triangleCount s = unpackInt .I s := rfl

theorem readKeyList_i16 (s : List Token) (n : ℕ) :
    readKeyList indexData16 .indicesKey s n = readPlainList .H s n := rfl

theorem unpackKey_e16_wc (s : List Token) :
    unpackKey EdgeIndices16 .westVertexCount s = unpackInt .I s := rfl

theorem unpackKey_e16_sc (s : List Token) :
    unpackKey EdgeIndices16 .southVertexCount s = unpackInt .I s := rfl

theorem unpackKey_e16_ec (s : List Token) :
    unpackKey EdgeIndices16 .eastVertexCount s = unpackInt .I s := rfl

theorem unpackKey_e16_nc (s : List Token) :
    unpackKey EdgeIndices16 .northVertexCount s = unpackInt .I s := rfl

theorem readKeyList_e16_w (s : List Token) (n : ℕ) :
    readKeyList EdgeIndices16 .westIndices s n = readPlainList .H s n := rfl

theorem readKeyList_e16_s (s : List Token) (n : ℕ) :
    readKeyList EdgeIndices16 .southIndices s n = readPlainList .H s n := rfl

theorem readKeyList_e16_e (s : List Token) (n : ℕ) :
    readKeyList EdgeIndices16 .eastIndices s n = readPlainList .H s n := rfl

theorem readKeyList_e16_n (s : List Token) (n : ℕ) :
    readKeyList EdgeIndices16 .northIndices s n = readPlainList .H s n := rfl

/-- The core sections round trip: a structurally valid tile whose vertex
count keeps the 16-bit index width in range serializes successfully, and
parsing the result (before any extension data) recovers every core field
exactly, leaving the remainder of the stream untouched. -/
theorem writeCore_read (t : Tile) (hc : ValidCore t)
    (hn : t.u.length ≤ 65535) :
    ∃ toks, writeCore t = .ok toks ∧
      ∀ r, readCore (toks ++ r) =
        .ok (⟨t.header, t.u, t.v, t.h, t.indices,
              t.westI, t.southI, t.eastI, t.northI⟩, r) := by
  obtain ⟨hne, hvl, hhl, hu, hv, hh, hmod, hhwm, hilt, hilen,
    hw, hs, he, hn4, hwlen, hslen, helen, hnlen⟩ := hc
  set n := t.u.length with hndef
  have hBS : ¬ ((n : ℤ) > BYTESPLIT) := by
    simp only [BYTESPLIT_eq]
    omega
  have hvc : packEntry .I (n : ℤ) = .ok (.int .I (n : ℤ)) :=
    packEntry_ok _ _ (by omega) (by simp only [intMax_I]; omega)
  obtain ⟨uT, huok, huread⟩ := packVertexStream_read t.u hne hu
  have hnpos : 0 < n := List.length_pos.mpr hne
  have hvne : t.v ≠ [] := by
    intro hcon
    rw [hcon] at hvl
    simp at hvl
    omega
  have hhne : t.h ≠ [] := by
    intro hcon
    rw [hcon] at hhl
    simp at hhl
    omega
  obtain ⟨vT, hvok, hvread⟩ := packVertexStream_read t.v hvne hv
  obtain ⟨hT, hhok, hhread⟩ := packVertexStream_read t.h hhne hh
  rw [hvl] at hvok hvread
  rw [hhl] at hhok hhread
  -- triangle index block
  have htc : packEntry .I ((t.indices.length / 3 : ℕ) : ℤ) =
      .ok (.int .I ((t.indices.length / 3 : ℕ) : ℤ)) := by
    refine packEntry_ok _ _ (by omega) ?_
    simp only [intMax_I]
    have : (t.indices.length / 3 : ℕ) ≤ t.indices.length := Nat.div_le_self _ _
    omega
  have hcodes : ∀ c ∈ encodeIndices t.indices, 0 ≤ c ∧ c < intMax .H := by
    intro c hcmem
    have := hwm_codes_bounded t.indices 0 (n : ℤ) hhwm hilt (by omega) c hcmem
    simp only [intMax_H]
    omega
  obtain ⟨codesT, hcok, hcread⟩ := packPlainList_read .H _ hcodes
  have hclen : (encodeIndices t.indices).length = t.indices.length :=
    encodeIndicesFrom_length t.indices 0
  -- edge blocks
  have hedge : ∀ l : List ℤ, (∀ j ∈ l, 0 ≤ j ∧ j < (n : ℤ)) →
      ∀ j ∈ l, 0 ≤ j ∧ j < intMax .H := by
    intro l hl j hj
    have := hl j hj
    simp only [intMax_H]
    omega
  obtain ⟨wT, hwok, hwread⟩ := packPlainList_read .H t.westI (hedge _ hw)
  obtain ⟨sT, hsok, hsread⟩ := packPlainList_read .H t.southI (hedge _ hs)
  obtain ⟨eT, heok, heread⟩ := packPlainList_read .H t.eastI (hedge _ he)
  obtain ⟨nT, hnok, hnread⟩ := packPlainList_read .H t.northI (hedge _ hn4)
  have hwc : packEntry .I (t.westI.length : ℤ) = .ok (.int .I (t.westI.length : ℤ)) :=
    packEntry_ok _ _ (by omega) (by simp only [intMax_I]; omega)
  have hsc : packEntry .I (t.southI.length : ℤ) = .ok (.int .I (t.southI.length : ℤ)) :=
    packEntry_ok _ _ (by omega) (by simp only [intMax_I]; omega)
  have hec : packEntry .I (t.eastI.length : ℤ) = .ok (.int .I (t.eastI.length : ℤ)) :=
    packEntry_ok _ _ (by omega) (by simp only [intMax_I]; omega)
  have hnc : packEntry .I (t.northI.length : ℤ) = .ok (.int .I (t.northI.length : ℤ)) :=
    packEntry_ok _ _ (by omega) (by simp only [intMax_I]; omega)
  refine ⟨headerTokens t.header ++ .int .I (n : ℤ) ::
      (uT ++ vT ++ hT ++ .int .I ((t.indices.length / 3 : ℕ) : ℤ) :: codesT ++
       .int .I (t.westI.length : ℤ) :: wT ++ .int .I (t.southI.length : ℤ) :: sT ++
       .int .I (t.eastI.length : ℤ) :: eT ++ .int .I (t.northI.length : ℤ) :: nT),
    ?_, ?_⟩
  · simp only [writeCore, ← hndef, if_neg hBS, packKey_i16_tc, packKeyList_i16,
      packKey_e16_wc, packKey_e16_sc, packKey_e16_ec, packKey_e16_nc,
      packKeyList_e16_w, packKeyList_e16_s, packKeyList_e16_e, packKeyList_e16_n,
      hvc, huok, hvok, hhok, htc, hcok, hwc, hwok, hsc, hsok,
      hec, heok, hnc, hnok, exceptBind_ok, exceptPure]
  · intro r
    have htoNat : ((n : ℤ)).toNat = n := Int.toNat_natCast n
    have hcodeslen : t.indices.length / 3 * 3 =
        (encodeIndices t.indices).length := by
      rw [hclen]
      exact Nat.div_mul_cancel (Nat.dvd_of_mod_eq_zero hmod)
    simp only [readCore, List.append_assoc, List.cons_append, readHeader_of_tokens,
      if_neg hBS, unpackKey_i16_tc, readKeyList_i16, unpackKey_e16_wc,
      unpackKey_e16_sc, unpackKey_e16_ec, unpackKey_e16_nc, readKeyList_e16_w,
      readKeyList_e16_s, readKeyList_e16_e, readKeyList_e16_n,
      unpackInt_cons, exceptBind_ok, htoNat, hcodeslen, huread, hvread, hhread,
      hcread, hwread, hsread, heread, hnread, Int.toNat_natCast, hwm_roundtrip,
      exceptPure]

/-- Shapes of watermask data accepted by the encoder: absent, a uniform
single row led by a genuine byte, or a full 256 x 256 grid of genuine
bytes. -/
def maskOKb (m : List (List (Option ℤ))) : Bool :=
  match m with
  | [] => true
  | [row] =>
      match row with
      | some b :: _ => decide (0 ≤ b) && decide (b < 256)
      | _ => false
  | _ =>
      decide (m.length = 256) &&
        m.all (fun r => decide (r.length = 256) && r.all byteOKb)

/-- What a watermask becomes after one encode/decode cycle: a uniform row
collapses to its first byte, a grid is reproduced exactly. -/
def maskRoundTrip (m : List (List (Option ℤ))) : List (List (Option ℤ)) :=
  match m with
  | [] => []
  | [y :: _] => [[some (y.getD 0)]]
  | _ => m

theorem writeLightSection_empty (t : Tile) (h : t.vLight = []) :
    writeLightSection t = (.ok [], t) := by
  unfold writeLightSection
  rw [h]

theorem readLightExt_skip (e : ℤ) (he : e ≠ 1) (r : List Token) :
    readLightExt (.int .B e :: r) = .ok ([], r) := by
  simp only [readLightExt, unpackInt_cons, exceptBind_ok, if_neg he, exceptPure]

theorem readMaskExt_skip (e : ℤ) (he : e ≠ 2) (r : List Token) :
    readMaskExt (.int .B e :: r) = .ok ([], r) := by
  simp only [readMaskExt, unpackInt_cons, exceptBind_ok, if_neg he, exceptPure]

theorem pyRound_le (q : ℚ) (h0 : 0 ≤ q) (h1 : q ≤ 255) :
    0 ≤ pyRound q ∧ pyRound q ≤ 255 := by
  have hfl0 : (0 : ℤ) ≤ ⌊q⌋ := Int.floor_nonneg.mpr h0
  have hflq : (⌊q⌋ : ℚ) ≤ q := Int.floor_le q
  have h255 : (⌊(255 : ℚ)⌋ : ℤ) = 255 := by
    rw [show (255 : ℚ) = ((255 : ℤ) : ℚ) by norm_num, Int.floor_intCast]
  have hfl255 : ⌊q⌋ ≤ 255 := by
    have := Int.floor_mono h1
    omega
  have hsmall : ¬ (q - (⌊q⌋ : ℚ) < 1/2) → ⌊q⌋ ≤ 254 := by
    intro hr
    have hge : (1 : ℚ)/2 ≤ q - (⌊q⌋ : ℚ) := le_of_not_lt hr
    by_contra hcon
    push_neg at hcon
    have : (255 : ℚ) ≤ (⌊q⌋ : ℚ) := by exact_mod_cast hcon
    linarith
  simp only [pyRound]
  constructor
  · split_ifs <;> omega
  · split_ifs with hr1 hr2 hr3
    · omega
    · have := hsmall hr1
      omega
    · omega
    · have := hsmall hr1
      omega

theorem octEncode_range (w : ℚ × ℚ × ℚ)
    (hz : |w.1| + |w.2.1| + |w.2.2| ≠ 0) :
    0 ≤ (octEncode w).1 ∧ (octEncode w).1 < 256 ∧
      0 ≤ (octEncode w).2 ∧ (octEncode w).2 < 256 := by
  have hsnn : 0 ≤ |w.1| + |w.2.1| + |w.2.2| := by positivity
  have hs0 : 0 < |w.1| + |w.2.1| + |w.2.2| := lt_of_le_of_ne hsnn (Ne.symm hz)
  set s := |w.1| + |w.2.1| + |w.2.2| with hs
  have hx1 : |w.1 / s| ≤ 1 := by
    rw [abs_div, abs_of_pos hs0, div_le_one hs0, hs]
    linarith [abs_nonneg w.2.1, abs_nonneg w.2.2]
  have hy1 : |w.2.1 / s| ≤ 1 := by
    rw [abs_div, abs_of_pos hs0, div_le_one hs0, hs]
    linarith [abs_nonneg w.1, abs_nonneg w.2.2]
  have key : ∀ a : ℚ, |a| ≤ 1 → 0 ≤ pyRound ((a * (1/2) + 1/2) * 255) ∧
      pyRound ((a * (1/2) + 1/2) * 255) < 256 := by
    intro a ha
    rw [abs_le] at ha
    have hq0 : 0 ≤ (a * (1/2) + 1/2) * 255 := by nlinarith [ha.1]
    have hq1 : (a * (1/2) + 1/2) * 255 ≤ 255 := by nlinarith [ha.2]
    have := pyRound_le _ hq0 hq1
    omega
  have hfold : ∀ a b : ℚ, |b| ≤ 1 → |(1 - |b|) * signQ a| ≤ 1 := by
    intro a b hb
    rw [abs_mul]
    have h1 : |signQ a| = 1 := by
      unfold signQ
      split_ifs <;> norm_num
    rw [h1, mul_one, abs_le]
    constructor
    · linarith
    · linarith [abs_nonneg b]
  unfold octEncode
  rw [← hs]
  dsimp only
  by_cases hzlt : w.2.2 / s < 0
  · rw [if_pos hzlt]
    dsimp only
    exact ⟨(key _ (hfold _ _ hy1)).1, (key _ (hfold _ _ hy1)).2,
      (key _ (hfold _ _ hx1)).1, (key _ (hfold _ _ hx1)).2⟩
  · rw [if_neg hzlt]
    dsimp only
    exact ⟨(key _ hx1).1, (key _ hx1).2, (key _ hy1).1, (key _ hy1).2⟩

theorem packLightPairs_ok (l : List (ℚ × ℚ × ℚ))
    (hnz : ∀ w ∈ l, |w.1| + |w.2.1| + |w.2.2| ≠ 0) :
    packLightPairs l.length l = .ok (lightToks l) := by
  induction l with
  | nil => rfl
  | cons w rest ih =>
      obtain ⟨h0, h1, h2, h3⟩ := octEncode_range w (hnz w (by simp))
      simp only [List.length_cons, packLightPairs,
        packEntry_ok .B (octEncode w).1 h0 (by simp only [intMax_B]; omega),
        packEntry_ok .B (octEncode w).2 h2 (by simp only [intMax_B]; omega),
        exceptBind_ok, ih (fun z hz => hnz z (by simp [hz])), exceptPure,
        lightToks]

theorem readLightPairs_toks (l : List (ℚ × ℚ × ℚ)) :
    ∀ r, readLightPairs (lightToks l ++ r) l.length =
      .ok (lightRoundTrip l, r) := by
  induction l with
  | nil => intro r; rfl
  | cons w rest ih =>
      intro r
      simp only [lightToks, List.cons_append, List.length_cons, readLightPairs,
        unpackInt_cons, exceptBind_ok, ih r, exceptPure, lightRoundTrip,
        List.map_cons]

theorem readLightExt_toks (l : List (ℚ × ℚ × ℚ)) (r : List Token) :
    readLightExt (.int .B 1 :: .int .I (2 * (l.length : ℤ)) ::
        (lightToks l ++ r)) = .ok (lightRoundTrip l, r) := by
  have hmod : (2 * (l.length : ℤ)) % 2 = 0 := Int.mul_emod_right 2 _
  have htn : (2 * (l.length : ℤ)).toNat / 2 = l.length := by omega
  simp only [readLightExt, unpackInt_cons, exceptBind_ok, if_pos rfl, hmod]
  rw [htn]
  exact readLightPairs_toks l r

theorem writeLightSection_ok (t : Tile) (w0 : ℚ × ℚ × ℚ)
    (rest : List (ℚ × ℚ × ℚ)) (hsh : t.vLight = w0 :: rest)
    (hlen : t.vLight.length = t.u.length) (hn : t.u.length ≤ 65535)
    (hnz : ∀ w ∈ t.vLight, |w.1| + |w.2.1| + |w.2.2| ≠ 0) :
    writeLightSection t =
      (.ok (.int .B 1 :: .int .I (2 * (t.u.length : ℤ)) :: lightToks t.vLight),
       { t with hasLighting := true }) := by
  have hpl : packLightPairs t.u.length t.vLight = .ok (lightToks t.vLight) := by
    rw [← hlen]
    exact packLightPairs_ok t.vLight hnz
  rw [hsh] at hpl
  unfold writeLightSection
  rw [hsh]
  simp only [packEntry_ok .B 1 (by omega) (by simp only [intMax_B]; omega),
    packEntry_ok .I (2 * (t.u.length : ℤ)) (by positivity)
      (by simp only [intMax_I]; omega),
    exceptBind_ok, hpl, exceptPure]

theorem lightSection_spec (t : Tile) (hn : t.u.length ≤ 65535)
    (hlight : t.vLight = [] ∨ (t.vLight.length = t.u.length ∧
      ∀ w ∈ t.vLight, |w.1| + |w.2.1| + |w.2.2| ≠ 0)) :
    ∃ lt t1, writeLightSection t = (.ok lt, t1) ∧
      t1.watermask = t.watermask ∧
      ((t.vLight.isEmpty = true ∧ lt = [] ∧ lightRoundTrip t.vLight = []) ∨
       (t.vLight.isEmpty = false ∧
         ∀ r, readLightExt (lt ++ r) = .ok (lightRoundTrip t.vLight, r))) := by
  rcases hsh : t.vLight with _ | ⟨w0, rest⟩
  · exact ⟨[], t, writeLightSection_empty t hsh, rfl, Or.inl ⟨rfl, rfl, rfl⟩⟩
  · rcases hlight with hle | ⟨hlen, hnz⟩
    · rw [hsh] at hle
      simp at hle
    · have hw := writeLightSection_ok t w0 rest hsh hlen hn hnz
      rw [hsh] at hw
      refine ⟨_, _, hw, rfl, Or.inr ⟨rfl, ?_⟩⟩
      intro r
      have hcast : (t.u.length : ℤ) = ((w0 :: rest).length : ℤ) := by
        rw [← hsh]
        exact_mod_cast hlen.symm
      simp only [List.cons_append, hcast]
      exact readLightExt_toks (w0 :: rest) r

theorem writeMaskSection_empty (t : Tile) (h : t.watermask = []) :
    writeMaskSection t = (.ok [], t) := by
  unfold writeMaskSection
  rw [h]

theorem writeMaskSection_uniform (t : Tile) (b : ℤ) (tail : List (Option ℤ))
    (hm : t.watermask = [some b :: tail]) (h0 : 0 ≤ b) (h1 : b < 256) :
    writeMaskSection t =
      (.ok [.int .B 2, .int .I 1, .int .B b], { t with hasWatermask := true }) := by
  unfold writeMaskSection
  rw [hm]
  simp only [List.length_nil, gt_iff_lt, Nat.lt_irrefl, if_false,
    packEntry_ok .B 2 (by omega) (by simp only [intMax_B]; omega),
    packEntry_ok .I 1 (by omega) (by simp only [intMax_I]; omega),
    packEntry_ok .B b h0 (by simp only [intMax_B]; omega),
    exceptBind_ok, exceptPure]

theorem writeMaskSection_uniform_none (t : Tile) (tail : List (Option ℤ))
    (hm : t.watermask = [none :: tail]) :
    writeMaskSection t =
      (.ok [.int .B 2, .int .I 1, .int .B 0],
       { t with hasWatermask := true, watermask := [some 0 :: tail] }) := by
  unfold writeMaskSection
  rw [hm]
  simp only [List.length_nil, gt_iff_lt, Nat.lt_irrefl, if_false,
    packEntry_ok .B 2 (by omega) (by simp only [intMax_B]; omega),
    packEntry_ok .I 1 (by omega) (by simp only [intMax_I]; omega),
    packEntry_ok .B 0 (by omega) (by simp only [intMax_B]; omega),
    exceptBind_ok, exceptPure]

theorem readMaskExt_uniform (b : ℤ) (r : List Token) :
    readMaskExt (.int .B 2 :: .int .I 1 :: .int .B b :: r) =
      .ok ([[some b]], r) := by
  simp only [readMaskExt, unpackInt_cons, exceptBind_ok, if_pos rfl]
  norm_num [readPlainList, unpackInt_cons, exceptBind_ok, exceptPure, chunk256]

/-- The token image of a list of integer words of one format. -/
def intToks (fmt : Fmt) (xs : List ℤ) : List Token := xs.map (Token.int fmt)

theorem readPlainList_intToks (fmt : Fmt) (xs : List ℤ) :
    ∀ r, readPlainList fmt (intToks fmt xs ++ r) xs.length = .ok (xs, r) := by
  induction xs with
  | nil => intro r; rfl
  | cons x rest ih =>
      intro r
      simp only [intToks, List.map_cons, List.length_cons, readPlainList,
        List.cons_append, unpackInt_cons, exceptBind_ok]
      have := ih r
      simp only [intToks] at this
      simp only [this, exceptBind_ok, exceptPure]

theorem packMaskValues_toks (row : List (Option ℤ))
    (h : ∀ y ∈ row, byteOKb y = true) :
    packMaskValues row = .ok (intToks .B (row.map (fun y => y.getD 0))) := by
  induction row with
  | nil => rfl
  | cons y rest ih =>
      obtain ⟨b, rfl⟩ : ∃ b, y = some b := by
        cases y with
        | none => simp [byteOKb] at h
        | some b => exact ⟨b, rfl⟩
      have hb := h (some b) (by simp)
      simp only [byteOKb, Bool.and_eq_true, decide_eq_true_eq] at hb
      simp only [packMaskValues,
        packEntry_ok .B b hb.1 (by simp only [intMax_B]; omega),
        ih (fun z hz => h z (by simp [hz])), exceptBind_ok, exceptPure,
        intToks, List.map_cons, Option.getD_some]

theorem packMaskRows_toks (rows : List (List (Option ℤ)))
    (h : ∀ row ∈ rows, row.length = 256 ∧ ∀ y ∈ row, byteOKb y = true) :
    packMaskRows rows =
      .ok (intToks .B (rows.flatMap (List.map (fun y => y.getD 0)))) := by
  induction rows with
  | nil => rfl
  | cons row rest ih =>
      have hrow := h row (by simp)
      simp only [packMaskRows, if_pos hrow.1, packMaskValues_toks row hrow.2,
        ih (fun z hz => h z (by simp [hz])), exceptBind_ok, exceptPure,
        intToks, List.flatMap_cons, List.map_append]

theorem flatMap_getD_length (rows : List (List (Option ℤ)))
    (h : ∀ row ∈ rows, row.length = 256) :
    (rows.flatMap (List.map (fun y => (y : Option ℤ).getD 0))).length =
      rows.length * 256 := by
  induction rows with
  | nil => rfl
  | cons row rest ih =>
      simp only [List.flatMap_cons, List.length_append, List.length_map,
        List.length_cons, h row (by simp), ih (fun z hz => h z (by simp [hz]))]
      ring

theorem chunk256_flat (rows : List (List ℤ)) (h : ∀ row ∈ rows, row.length = 256) :
    chunk256 (rows.flatMap id) = rows := by
  induction rows with
  | nil => simp [chunk256]
  | cons row rest ih =>
      have hrow : row.length = 256 := h row (by simp)
      obtain ⟨y, row2, rfl⟩ : ∃ y row2, row = y :: row2 := by
        cases row with
        | nil => simp at hrow
        | cons a b => exact ⟨a, b, rfl⟩
      have hcons : (y :: row2) ++ rest.flatMap id = y :: (row2 ++ rest.flatMap id) := by
        simp
      simp only [List.flatMap_cons, id]
      rw [hcons, chunk256, ← hcons]
      rw [List.take_left' hrow, List.drop_left' hrow]
      rw [ih (fun z hz => h z (by simp [hz]))]

theorem row_resome (row : List (Option ℤ)) (h : ∀ y ∈ row, byteOKb y = true) :
    row.map (fun y => some (y.getD 0)) = row := by
  induction row with
  | nil => rfl
  | cons y rest ih =>
      obtain ⟨b, rfl⟩ : ∃ b, y = some b := by
        cases y with
        | none => simp [byteOKb] at h
        | some b => exact ⟨b, rfl⟩
      simp only [List.map_cons, Option.getD_some, List.cons.injEq, true_and]
      exact ih (fun z hz => h z (by simp [hz]))

theorem writeMaskSection_grid (t : Tile) (rows : List (List (Option ℤ)))
    (hm : t.watermask = rows) (hlen : rows.length = 256)
    (hrows : ∀ row ∈ rows, row.length = 256 ∧ ∀ y ∈ row, byteOKb y = true) :
    writeMaskSection t =
      (.ok (.int .B 2 :: .int .I TILEPXS ::
            intToks .B (rows.flatMap (List.map (fun y => y.getD 0)))),
       { t with hasWatermask := true }) := by
  obtain ⟨row0, restRows, rfl⟩ : ∃ row0 restRows, rows = row0 :: restRows := by
    cases rows with
    | nil => simp at hlen
    | cons a b => exact ⟨a, b, rfl⟩
  have hrest : restRows.length + 1 > 1 := by
    simp only [List.length_cons] at hlen
    omega
  have hrest256 : restRows.length + 1 = 256 := by
    simpa using hlen
  unfold writeMaskSection
  rw [hm]
  simp only [if_pos hrest, if_pos hrest256,
    packEntry_ok .B 2 (by omega) (by simp only [intMax_B]; omega),
    packEntry_ok .I TILEPXS (by simp [TILEPXS]) (by simp [TILEPXS, intMax_I]),
    packMaskRows_toks _ hrows, exceptBind_ok, exceptPure]

theorem readMaskExt_grid (rows : List (List (Option ℤ)))
    (hlen : rows.length = 256)
    (hrows : ∀ row ∈ rows, row.length = 256 ∧ ∀ y ∈ row, byteOKb y = true)
    (r : List Token) :
    readMaskExt (.int .B 2 :: .int .I TILEPXS ::
        intToks .B (rows.flatMap (List.map (fun y => y.getD 0))) ++ r) =
      .ok (rows, r) := by
  have hflatlen : (rows.flatMap (List.map (fun y => (y : Option ℤ).getD 0))).length
      = 65536 := by
    rw [flatMap_getD_length rows (fun z hz => (hrows z hz).1), hlen]
  have hread := readPlainList_intToks .B
    (rows.flatMap (List.map (fun y => (y : Option ℤ).getD 0))) r
  rw [hflatlen] at hread
  have htn : (TILEPXS).toNat = 65536 := rfl
  have hchunk : chunk256 (rows.flatMap (List.map (fun y => (y : Option ℤ).getD 0)))
      = rows.map (List.map (fun y => (y : Option ℤ).getD 0)) := by
    have := chunk256_flat (rows.map (List.map (fun y => (y : Option ℤ).getD 0)))
      (by
        intro row hrow
        simp only [List.mem_map] at hrow
        obtain ⟨row0, hr0, rfl⟩ := hrow
        simp [List.length_map, (hrows row0 hr0).1])
    rw [← this]
    congr 1
    rw [List.flatMap_map]
    rfl
  have hmaps : (rows.map (List.map (fun y => (y : Option ℤ).getD 0))).map
      (fun row => List.map some row) = rows := by
    rw [List.map_map]
    refine (List.map_congr_left ?_).trans (List.map_id rows)
    intro row hrow
    simp only [Function.comp_apply, List.map_map]
    have := row_resome row (hrows row hrow).2
    simpa [Function.comp] using this
  simp only [readMaskExt, List.cons_append, unpackInt_cons, exceptBind_ok,
    htn, hread, exceptPure, hchunk]
  simp [hmaps]

theorem maskSection_spec (t : Tile) (hmask : maskOKb t.watermask = true) :
    ∃ mt t2, writeMaskSection t = (.ok mt, t2) ∧
      ((t.watermask.isEmpty = true ∧ mt = [] ∧
          maskRoundTrip t.watermask = []) ∨
       (t.watermask.isEmpty = false ∧
         ∀ r, readMaskExt (mt ++ r) = .ok (maskRoundTrip t.watermask, r))) := by
  rcases hshape : t.watermask with _ | ⟨row0, restRows⟩
  · exact ⟨[], t, writeMaskSection_empty t hshape, Or.inl ⟨rfl, rfl, rfl⟩⟩
  · rcases restRows with _ | ⟨row1, restRows2⟩
    · obtain ⟨b, tail, hrow0, hb0, hb1⟩ :
          ∃ b tail, row0 = some b :: tail ∧ 0 ≤ b ∧ b < 256 := by
        rw [hshape] at hmask
        cases row0 with
        | nil => simp [maskOKb] at hmask
        | cons y tail =>
            cases y with
            | none => simp [maskOKb] at hmask
            | some b =>
                simp only [maskOKb, Bool.and_eq_true, decide_eq_true_eq] at hmask
                exact ⟨b, tail, rfl, hmask.1, hmask.2⟩
      subst hrow0
      refine ⟨[.int .B 2, .int .I 1, .int .B b], { t with hasWatermask := true },
        writeMaskSection_uniform t b tail (by rw [hshape]) hb0 hb1,
        Or.inr ⟨rfl, ?_⟩⟩
      intro r
      simp only [List.cons_append, List.nil_append]
      rw [readMaskExt_uniform b r]
      simp only [maskRoundTrip, Option.getD_some]
    · have hgrid : (t.watermask.length = 256) ∧
          ∀ row ∈ t.watermask, row.length = 256 ∧ ∀ y ∈ row, byteOKb y = true := by
        rw [hshape] at hmask
        simp only [maskOKb, Bool.and_eq_true, decide_eq_true_eq, List.all_eq_true]
          at hmask
        rw [hshape]
        refine ⟨hmask.1, ?_⟩
        intro row hrow
        have := hmask.2 row hrow
        simp only [Bool.and_eq_true, decide_eq_true_eq, List.all_eq_true] at this
        exact ⟨this.1, this.2⟩
      have hmsec := writeMaskSection_grid t t.watermask rfl hgrid.1 hgrid.2
      rw [hshape] at hmsec
      refine ⟨_, _, hmsec, Or.inr ⟨rfl, ?_⟩⟩
      intro r
      have hmread := readMaskExt_grid (row0 :: row1 :: restRows2)
        (by rw [← hshape]; exact hgrid.1)
        (by rw [← hshape]; exact hgrid.2) r
      simp only [List.cons_append, List.append_assoc] at hmread ⊢
      rw [hmread]
      simp only [maskRoundTrip]

/-- The tile produced by parsing the serialization of `t` into a freshly
constructed tile with matching extension declarations. -/
def decodedTile (t : Tile) (hl hw : Bool) : Tile :=
  { freshTile with
    hasLighting := hl
    hasWatermask := hw
    header := t.header
    u := t.u, v := t.v, h := t.h
    indices := t.indices
    westI := t.westI, southI := t.southI, eastI := t.eastI, northI := t.northI
    vLight := lightRoundTrip t.vLight
    watermask := maskRoundTrip t.watermask }

/-- Full round trip for a valid tile: serialization succeeds and parsing
its output with matching extension declarations into a fresh tile
reproduces the header, the vertex arrays, the triangle indices and the four
edge lists exactly (the lighting data up to the octahedral codec cycle
recorded by `lightRoundTrip`, the watermask up to the uniform-row collapse
recorded by `maskRoundTrip`). -/
theorem encode_decode (t : Tile) (hvc : ValidCore t) (hn : t.u.length ≤ 65535)
    (hlight : t.vLight = [] ∨ (t.vLight.length = t.u.length ∧
      ∀ w ∈ t.vLight, |w.1| + |w.2.1| + |w.2.2| ≠ 0))
    (hmask : maskOKb t.watermask = true) :
    ∃ toks, (writeTo t).1 = .ok toks ∧
      ∀ r, fromBytesStream (toks ++ r) (!t.vLight.isEmpty)
          (!t.watermask.isEmpty) freshTile =
        .ok (decodedTile t (!t.vLight.isEmpty) (!t.watermask.isEmpty), r) := by
  obtain ⟨coreT, hcok, hcread⟩ := writeCore_read t hvc hn
  obtain ⟨lt, t1, hlpair, hlwm, hlcase⟩ := lightSection_spec t hn hlight
  obtain ⟨mt, t2, hmpair, hmcase⟩ :=
    maskSection_spec t1 (by rw [hlwm]; exact hmask)
  rw [hlwm] at hmcase
  refine ⟨coreT ++ lt ++ mt, ?_, ?_⟩
  · rw [writeTo_parts, hcok, hlpair,
      show ((Except.ok lt : Except Err (List Token)), t1).2 = t1 from rfl,
      hmpair, seqSections_ok]
  · intro r
    rcases hlcase with ⟨hbe, hlte, hlrt⟩ | ⟨hbe, hlread2⟩
    · subst hlte
      have hbe2 : (!t.vLight.isEmpty) = false := by rw [hbe]; rfl
      rcases hmcase with ⟨hbm, hmte, hmrt⟩ | ⟨hbm, hmread2⟩
      · subst hmte
        have hbm2 : (!t.watermask.isEmpty) = false := by rw [hbm]; rfl
        rw [hbe2, hbm2]
        simp only [List.append_nil, fromBytesStream, hcread, exceptBind_ok,
          Bool.false_eq_true, if_false, exceptPure]
        simp only [decodedTile, freshTile, List.nil_append, hlrt, hmrt]
      · have hbm2 : (!t.watermask.isEmpty) = true := by rw [hbm]; rfl
        rw [hbe2, hbm2]
        simp only [List.append_nil, List.append_assoc, fromBytesStream, hcread,
          exceptBind_ok, Bool.false_eq_true, if_false, if_true, hmread2,
          exceptPure]
        simp only [decodedTile, freshTile, List.nil_append, hlrt]
    · have hbe2 : (!t.vLight.isEmpty) = true := by rw [hbe]; rfl
      rcases hmcase with ⟨hbm, hmte, hmrt⟩ | ⟨hbm, hmread2⟩
      · subst hmte
        have hbm2 : (!t.watermask.isEmpty) = false := by rw [hbm]; rfl
        rw [hbe2, hbm2]
        simp only [List.append_nil, List.append_assoc, fromBytesStream, hcread,
          exceptBind_ok, Bool.false_eq_true, if_false, if_true, hlread2,
          exceptPure]
        simp only [decodedTile, freshTile, List.nil_append, hmrt]
      · have hbm2 : (!t.watermask.isEmpty) = true := by rw [hbm]; rfl
        rw [hbe2, hbm2]
        simp only [List.append_assoc, fromBytesStream, hcread, exceptBind_ok,
          if_true, hlread2, hmread2, exceptPure]
        simp only [decodedTile, freshTile, List.nil_append]

theorem writeCore_empty (t : Tile) (hu : t.u = []) :
    writeCore t = .error .indexError := by
  simp only [writeCore, hu, List.length_nil, Nat.cast_zero,
    packEntry_ok .I 0 (by omega) (by simp only [intMax_I]; omega),
    exceptBind_ok, packVertexStream, exceptBind_err]

theorem writeTo_empty (t : Tile) (hu : t.u = []) :
    (writeTo t).1 = .error .indexError := by
  rw [writeTo_parts, writeCore_empty t hu, seqSections_err_core]

/-- A small fully valid tile used as a concrete witness input. -/
def wTile : Tile :=
  { freshTile with
    u := [0, 32767], v := [0, 32767], h := [5, 5]
    indices := [0, 1, 0]
    westI := [0], southI := [0], eastI := [1], northI := [1] }

/-- A one-row-one-byte uniform watermask variant of the witness tile. -/
def wTileUniform : Tile := { wTile with watermask := [[some 7]], hasWatermask := true }

theorem getD_map (l : List ℤ) (f : ℤ → ℚ) (i : ℕ) (d : ℚ) :
    ∀ hlt : i < l.length, (l.map f).getD i d = f (l.getD i 0) := by
  induction l generalizing i with
  | nil => intro hlt; simp at hlt
  | cons x rest ih =>
      intro hlt
      cases i with
      | zero => rfl
      | succ j =>
          simp only [List.map_cons, List.getD_cons_succ]
          exact ih j (by simpa using hlt)

theorem coordsZip_spec (ls : List ℚ) :
    ∀ las hs : List ℚ, ls.length ≤ las.length → ls.length ≤ hs.length →
      ∃ cs, coordsZip ls las hs = some cs ∧ cs.length = ls.length ∧
        ∀ i, i < ls.length →
          cs.getD i (0, 0, 0) = (ls.getD i 0, las.getD i 0, hs.getD i 0) := by
  induction ls with
  | nil =>
      intro las hs _ _
      exact ⟨[], rfl, rfl, fun i hi => by simp at hi⟩
  | cons l ls2 ih =>
      intro las hs hlen1 hlen2
      obtain ⟨la, las2, rfl⟩ : ∃ la las2, las = la :: las2 := by
        cases las with
        | nil => simp at hlen1
        | cons a b => exact ⟨a, b, rfl⟩
      obtain ⟨hh, hs2, rfl⟩ : ∃ hh hs2, hs = hh :: hs2 := by
        cases hs with
        | nil => simp at hlen2
        | cons a b => exact ⟨a, b, rfl⟩
      obtain ⟨cs, hcs, hlen, hspec⟩ := ih las2 hs2 (by simpa using hlen1)
        (by simpa using hlen2)
      refine ⟨(l, la, hh) :: cs, ?_, by simp [hlen], ?_⟩
      · simp only [coordsZip, hcs]
        rfl
      · intro i hi
        cases i with
        | zero => rfl
        | succ j =>
            simp only [List.getD_cons_succ]
            exact hspec j (by simpa using hi)

/-- C2 (amended): for every tile built from a non-empty valid topology with
at most 65535 vertices (so that every 16-bit index word is in range), with
per-vertex lighting data, when present, matching the vertex count and made
of nonzero normals (as the unit normals of a topology are), decoding the
bytes produced by encoding it, with matching `hasLighting`/`hasWatermask`
declarations, reproduces the twelve header fields exactly (hence within any
tolerance), and reproduces the `u`, `v`, `h` arrays, the triangle index
array and the four edge-index lists exactly and in their original order,
consuming the whole stream. -/
theorem claim_C2_roundtrip (t : Tile) (hvc : ValidCore t)
    (hn : t.u.length ≤ 65535)
    (hlight : t.vLight = [] ∨ (t.vLight.length = t.u.length ∧
      ∀ w ∈ t.vLight, |w.1| + |w.2.1| + |w.2.2| ≠ 0))
    (hmask : maskOKb t.watermask = true) :
    ∃ toks t', (writeTo t).1 = .ok toks ∧
      fromBytesStream toks (!t.vLight.isEmpty) (!t.watermask.isEmpty)
          freshTile = .ok (t', []) ∧
      t'.header = t.header ∧ t'.u = t.u ∧ t'.v = t.v ∧ t'.h = t.h ∧
      t'.indices = t.indices ∧ t'.westI = t.westI ∧ t'.southI = t.southI ∧
      t'.eastI = t.eastI ∧ t'.northI = t.northI := by
  obtain ⟨toks, hok, hread⟩ := encode_decode t hvc hn hlight hmask
  have hread0 := hread []
  rw [List.append_nil] at hread0
  exact ⟨toks, decodedTile t (!t.vLight.isEmpty) (!t.watermask.isEmpty), hok,
    hread0, rfl, rfl, rfl, rfl, rfl, rfl, rfl, rfl, rfl⟩

/-- A lighting-carrying variant of the witness tile: one unit normal per
vertex. -/
def wTileLight : Tile :=
  { wTile with vLight := [(1, 0, 0), (0, 0, 1)] }

theorem claim_C2_roundtrip_witness :
    ValidCore wTileLight ∧ wTileLight.u.length ≤ 65535 ∧
      (wTileLight.vLight = [] ∨
        (wTileLight.vLight.length = wTileLight.u.length ∧
          ∀ w ∈ wTileLight.vLight, |w.1| + |w.2.1| + |w.2.2| ≠ 0)) ∧
      maskOKb wTileLight.watermask = true ∧
      (∃ toks t', (writeTo wTileLight).1 = .ok toks ∧
        fromBytesStream toks (!wTileLight.vLight.isEmpty)
            (!wTileLight.watermask.isEmpty) freshTile = .ok (t', []) ∧
        t'.header = wTileLight.header ∧ t'.u = wTileLight.u ∧
        t'.v = wTileLight.v ∧ t'.h = wTileLight.h ∧
        t'.indices = wTileLight.indices ∧ t'.westI = wTileLight.westI ∧
        t'.southI = wTileLight.southI ∧ t'.eastI = wTileLight.eastI ∧
        t'.northI = wTileLight.northI) := by
  have hnz : ∀ w ∈ wTileLight.vLight, |w.1| + |w.2.1| + |w.2.2| ≠ 0 := by
    intro w hw
    have hw2 : w = ((1 : ℚ), (0 : ℚ), (0 : ℚ)) ∨
        w = ((0 : ℚ), (0 : ℚ), (1 : ℚ)) := by
      simpa [wTileLight] using hw
    rcases hw2 with rfl | rfl <;> norm_num
  exact ⟨by unfold ValidCore; decide, by decide, Or.inr ⟨rfl, hnz⟩, by decide,
    claim_C2_roundtrip wTileLight (by unfold ValidCore; decide) (by decide)
      (Or.inr ⟨rfl, hnz⟩) (by decide)⟩

/-- C6: on a flat tile (`maximumHeight == minimumHeight`, zero height
range) `_quantizeHeight` returns 0 for every input height; no division by
zero occurs (the scaling branch is not taken). -/
theorem claim_C6_flat (t : Tile)
    (h : t.header.maximumHeight = t.header.minimumHeight) :
    ∀ height : ℚ, quantizeHeight t height = 0 := by
  intro height
  unfold quantizeHeight getDeltaHeight
  rw [h]
  simp

theorem claim_C6_flat_witness :
    freshTile.header.maximumHeight = freshTile.header.minimumHeight ∧
      quantizeHeight freshTile 5 = 0 :=
  ⟨rfl, claim_C6_flat freshTile rfl 5⟩

/-- C9: `getVerticesCoordinates` returns at position `i` the triple of
linear interpolations of the quantized coordinates over the per-axis
domains: longitude over `[west, east]` at `u[i]/32767`, latitude over
`[south, north]` at `v[i]/32767`, height over
`[minimumHeight, maximumHeight]` at `h[i]/32767`. -/
theorem claim_C9_dequantize (t : Tile) (i : ℕ) (hi : i < t.u.length)
    (hv : t.u.length ≤ t.v.length) (hh : t.u.length ≤ t.h.length) :
    ∃ cs, getVerticesCoordinates t = some cs ∧ cs.length = t.u.length ∧
      cs.getD i (0, 0, 0) =
        (lerp t.west t.east ((t.u.getD i 0 : ℚ) / MAX),
         lerp t.south t.north ((t.v.getD i 0 : ℚ) / MAX),
         lerp t.header.minimumHeight t.header.maximumHeight
           ((t.h.getD i 0 : ℚ) / MAX)) := by
  have hLu : (computeLongs t).length = t.u.length := by
    rw [computeLongs, List.length_map]
  have hLv : (computeLats t).length = t.v.length := by
    rw [computeLats, List.length_map]
  have hLh : (computeHeights t).length = t.h.length := by
    rw [computeHeights, List.length_map]
  obtain ⟨cs, hcs, hlen, hspec⟩ := coordsZip_spec (computeLongs t)
    (computeLats t) (computeHeights t)
    (by rw [hLu, hLv]; exact hv) (by rw [hLu, hLh]; exact hh)
  refine ⟨cs, hcs, by rw [hlen, hLu], ?_⟩
  rw [hspec i (by rw [hLu]; exact hi)]
  rw [computeLongs, computeLats, computeHeights,
      getD_map _ _ _ _ hi, getD_map _ _ _ _ (by omega),
      getD_map _ _ _ _ (by omega)]

theorem claim_C9_dequantize_witness :
    1 < wTile.u.length ∧ wTile.u.length ≤ wTile.v.length ∧
      wTile.u.length ≤ wTile.h.length ∧
      (∃ cs, getVerticesCoordinates wTile = some cs ∧
        cs.length = wTile.u.length ∧
        cs.getD 1 (0, 0, 0) =
          (lerp wTile.west wTile.east ((wTile.u.getD 1 0 : ℚ) / MAX),
           lerp wTile.south wTile.north ((wTile.v.getD 1 0 : ℚ) / MAX),
           lerp wTile.header.minimumHeight wTile.header.maximumHeight
             ((wTile.h.getD 1 0 : ℚ) / MAX))) :=
  ⟨by decide, by decide, by decide,
   claim_C9_dequantize wTile 1 (by decide) (by decide) (by decide)⟩

/-- C4: the default write entry point `toFile` fails on an existing
destination (`IOError`, the spec's PreconditionError) and leaves the
filesystem — in particular the existing file — unmodified; the
overwrite-enabled entry point `toOurFile` unconditionally replaces the
destination with the encoder output. -/
theorem claim_C4_overwrite (fs : ℕ → Option (List Token)) (p : ℕ) (t : Tile)
    (gz : Bool) (hex : (fs p).isSome = true) :
    toFile fs p t gz = (.error .fileExistsError, fs) ∧
      toOurFile fs p t gz =
        (writeOutcome t, Function.update fs p (some (writtenContent t))) := by
  constructor
  · simp [toFile, hex]
  · rfl

/-- C3 (amended): when the extension id found at the extension-header
position differs from the declared expectation (1 for lighting, 2 for
watermask), `fromBytesIO` does not raise — it silently skips the extension
and completes successfully, leaving the corresponding payload empty. -/
theorem claim_C3_skip (t : Tile) (hvc : ValidCore t) (hn : t.u.length ≤ 65535)
    (hlight : t.vLight = []) (hmask : t.watermask = [])
    (e1 e2 : ℤ) (he1 : e1 ≠ 1) (he2 : e2 ≠ 2) :
    ∃ toks, (writeTo t).1 = .ok toks ∧
      (fromBytesStream (toks ++ [.int .B e1]) true false freshTile).map
          (fun p => (p.1.vLight, p.2)) = .ok ([], []) ∧
      (fromBytesStream (toks ++ [.int .B e2]) false true freshTile).map
          (fun p => (p.1.watermask, p.2)) = .ok ([], []) := by
  obtain ⟨coreT, hcok, hcread⟩ := writeCore_read t hvc hn
  have hlightsec := writeLightSection_empty t hlight
  have hmsec := writeMaskSection_empty t hmask
  have hok : (writeTo t).1 = .ok (coreT ++ [] ++ []) := by
    rw [writeTo_parts, hcok, hlightsec]
    rw [show ((Except.ok [] : Except Err (List Token)), t).2 = t from rfl, hmsec]
    rw [seqSections_ok]
  refine ⟨coreT ++ [] ++ [], hok, ?_, ?_⟩
  · simp only [List.append_nil, fromBytesStream, hcread, exceptBind_ok,
      if_true, readLightExt_skip e1 he1, Bool.false_eq_true, if_false,
      exceptPure, Except.map, freshTile, List.nil_append]
  · simp only [List.append_nil, fromBytesStream, hcread, exceptBind_ok,
      if_true, readMaskExt_skip e2 he2, Bool.false_eq_true, if_false,
      exceptPure, Except.map, freshTile, List.nil_append]

theorem claim_C3_skip_witness :
    ValidCore wTile ∧ wTile.u.length ≤ 65535 ∧ wTile.vLight = [] ∧
      wTile.watermask = [] ∧ (0 : ℤ) ≠ 1 ∧ (0 : ℤ) ≠ 2 ∧
      (∃ toks, (writeTo wTile).1 = .ok toks ∧
        (fromBytesStream (toks ++ [.int .B 0]) true false freshTile).map
            (fun p => (p.1.vLight, p.2)) = .ok ([], []) ∧
        (fromBytesStream (toks ++ [.int .B 0]) false true freshTile).map
            (fun p => (p.1.watermask, p.2)) = .ok ([], [])) :=
  ⟨by unfold ValidCore; decide, by decide, by decide, by decide, by decide,
   by decide,
   claim_C3_skip wTile (by unfold ValidCore; decide) (by decide) (by decide)
     (by decide) 0 0 (by decide) (by decide)⟩

/-- C3 (counterexample to the claim as stated): a concrete stream carrying
a single tile with one vertex and an extension id 0 at the extension
position, decoded with `hasLighting = true`; decoding completes
successfully instead of failing. -/
def c3stream : List Token :=
  headerTokens zeroHeader ++
  [.int .I 1, .int .H 0, .int .H 0, .int .H 0, .int .I 0,
   .int .I 0, .int .I 0, .int .I 0, .int .I 0, .int .B 0]

/-- Whether decoding a stream into a fresh tile completes without raising. -/
def decodeSucceeds (s : List Token) (hl hw : Bool) : Bool :=
  match fromBytesStream s hl hw freshTile with
  | .ok _ => true
  | .error _ => false

/-- C3 counterexample: decoding `c3stream` with declared expectation
`hasLighting = true` meets extension id 0 ≠ 1 at the extension-header
position, yet completes successfully (no error of any kind is raised). -/
theorem claim_C3_counterexample :
    decodeSucceeds c3stream true false = true := by
  rfl

/-- C8: watermask round trip.  A tile carrying a uniform single-byte
watermask encodes and decodes (with `hasWatermask` declared) back to the
same uniform byte; a tile carrying a full 256 x 256 grid of bytes decodes
back to the identical grid, element-wise, rows and columns in their
original (north→south, west→east) order. -/
theorem claim_C8_watermask (t : Tile) (hvc : ValidCore t)
    (hn : t.u.length ≤ 65535) (hlight : t.vLight = []) :
    (∀ b : ℤ, 0 ≤ b → b < 256 → t.watermask = [[some b]] →
      ∃ toks t', (writeTo t).1 = .ok toks ∧
        fromBytesStream toks false true freshTile = .ok (t', []) ∧
        t'.watermask = [[some b]]) ∧
    ((∀ row ∈ t.watermask, row.length = 256 ∧ ∀ y ∈ row, byteOKb y = true) →
      t.watermask.length = 256 →
      ∃ toks t', (writeTo t).1 = .ok toks ∧
        fromBytesStream toks false true freshTile = .ok (t', []) ∧
        t'.watermask = t.watermask) := by
  constructor
  · intro b hb0 hb1 hm
    have hmask : maskOKb t.watermask = true := by
      rw [hm]
      unfold maskOKb
      simp [hb0, hb1]
    obtain ⟨toks, hok, hread⟩ := encode_decode t hvc hn (Or.inl hlight) hmask
    have hlf : (!t.vLight.isEmpty) = false := by rw [hlight]; rfl
    have hflag : (!t.watermask.isEmpty) = true := by rw [hm]; rfl
    rw [hlf, hflag] at hread
    have hread0 := hread []
    rw [List.append_nil] at hread0
    refine ⟨toks, decodedTile t false true, hok, hread0, ?_⟩
    show maskRoundTrip t.watermask = [[some b]]
    rw [hm]
    rfl
  · intro hrows hlen
    obtain ⟨r0, r1, rest, hm⟩ : ∃ r0 r1 rest, t.watermask = r0 :: r1 :: rest := by
      rcases hw : t.watermask with _ | ⟨a, _ | ⟨c, d⟩⟩
      · rw [hw] at hlen; simp at hlen
      · rw [hw] at hlen; simp at hlen
      · exact ⟨a, c, d, rfl⟩
    rw [hm] at hlen hrows
    have harm : maskOKb (r0 :: r1 :: rest) =
        (decide ((r0 :: r1 :: rest).length = 256) &&
          (r0 :: r1 :: rest).all
            (fun r => decide (r.length = 256) && r.all byteOKb)) := rfl
    have hmask : maskOKb t.watermask = true := by
      rw [hm, harm]
      simp only [Bool.and_eq_true, decide_eq_true_eq, List.all_eq_true]
      exact ⟨hlen, hrows⟩
    obtain ⟨toks, hok, hread⟩ := encode_decode t hvc hn (Or.inl hlight) hmask
    have hlf : (!t.vLight.isEmpty) = false := by rw [hlight]; rfl
    have hflag : (!t.watermask.isEmpty) = true := by rw [hm]; rfl
    rw [hlf, hflag] at hread
    have hread0 := hread []
    rw [List.append_nil] at hread0
    refine ⟨toks, decodedTile t false true, hok, hread0, ?_⟩
    show maskRoundTrip t.watermask = t.watermask
    rw [hm]
    cases r0 with
    | nil => rfl
    | cons y ys => rfl

/-- C10: encoding is only total for tiles with at least one vertex —
`_writeTo` unconditionally reads `u[0]`, `v[0]`, `h[0]`, so a tile whose
`u`, `v`, `h` lists are all empty fails with an `IndexError`; with at least
one vertex (as part of core validity) that error branch is unreachable and
encoding succeeds. -/
theorem claim_C10_empty_encode (t : Tile) :
    (t.u = [] → t.v = [] → t.h = [] → (writeTo t).1 = .error .indexError) ∧
    (ValidCore t → t.u.length ≤ 65535 → t.vLight = [] →
      maskOKb t.watermask = true → ∃ toks, (writeTo t).1 = .ok toks) := by
  constructor
  · intro hu _ _
    exact writeTo_empty t hu
  · intro hvc hn hlight hmask
    obtain ⟨toks, hok, _⟩ := encode_decode t hvc hn (Or.inl hlight) hmask
    exact ⟨toks, hok⟩

theorem claim_C10_empty_encode_witness :
    ((writeTo freshTile).1 = .error .indexError) ∧
      (∃ toks, (writeTo wTile).1 = .ok toks) :=
  ⟨(claim_C10_empty_encode freshTile).1 rfl rfl rfl,
   (claim_C10_empty_encode wTile).2 (by unfold ValidCore; decide) (by decide)
     (by decide) (by decide)⟩

theorem claim_C4_overwrite_witness :
    (((fun _ => some []) : ℕ → Option (List Token)) 0).isSome = true ∧
      (toFile (fun _ => some []) 0 wTile false =
        (.error .fileExistsError, fun _ => some []) ∧
       toOurFile (fun _ => some []) 0 wTile false =
        (writeOutcome wTile,
         Function.update (fun _ => some []) 0 (some (writtenContent wTile)))) :=
  ⟨rfl, claim_C4_overwrite (fun _ => some []) 0 wTile false rfl⟩

theorem writeLightSection_snd (t : Tile) :
    ((writeLightSection t).2 = t ∧ t.vLight = []) ∨
    ((writeLightSection t).2 = { t with hasLighting := true } ∧ t.vLight ≠ []) := by
  rcases hvl : t.vLight with _ | ⟨a, b⟩
  · left
    exact ⟨by rw [writeLightSection_empty t hvl], rfl⟩
  · right
    constructor
    · unfold writeLightSection
      rw [hvl]
    · simp

theorem writeMaskSection_snd (t : Tile) :
    ((writeMaskSection t).2 = t ∧ t.watermask = []) ∨
    ((writeMaskSection t).2 = { t with hasWatermask := true } ∧
      t.watermask ≠ [] ∧ (writeMaskSection t).2.watermask = t.watermask) ∨
    (∃ tail, t.watermask = [none :: tail] ∧
      (writeMaskSection t).2 =
        { t with hasWatermask := true, watermask := [some 0 :: tail] }) := by
  rcases hm : t.watermask with _ | ⟨row0, rest⟩
  · left
    exact ⟨by rw [writeMaskSection_empty t hm], rfl⟩
  · rcases rest with _ | ⟨r1, rs⟩
    · rcases row0 with _ | ⟨y, tail⟩
      · right; left
        refine ⟨?_, by simp, ?_⟩
        · unfold writeMaskSection
          rw [hm]
          simp
        · unfold writeMaskSection
          rw [hm]
          simp
      · cases y with
        | none =>
            right; right
            refine ⟨tail, rfl, ?_⟩
            unfold writeMaskSection
            rw [hm]
            simp
        | some b =>
            right; left
            refine ⟨?_, by simp, ?_⟩
            · unfold writeMaskSection
              rw [hm]
              simp
            · unfold writeMaskSection
              rw [hm]
              simp
    · right; left
      refine ⟨?_, by simp, ?_⟩
      · unfold writeMaskSection
        rw [hm]
        simp
      · unfold writeMaskSection
        rw [hm]
        simp

/-- Whether serializing tile `t` completes without raising. -/
def encodeSucceeds (t : Tile) : Bool :=
  match (writeTo t).1 with
  | .ok _ => true
  | .error _ => false

/-- C5 (amended): `_writeTo` never changes the bounds, header, vertex
arrays, triangle indices, edge lists or `vLight` of the tile — whether it
succeeds or raises — but it is not read-only: it may set `hasLighting` to
`True` (when `vLight` is nonempty), set `hasWatermask` to `True` (when
`watermask` is nonempty), and replace a `None` first byte of a uniform
watermask by 0 in place. -/
theorem claim_C5_frame (t : Tile) :
    ∃ hl hw wm,
      (writeTo t).2 =
        { t with hasLighting := hl, hasWatermask := hw, watermask := wm } ∧
      (hl = t.hasLighting ∨ (hl = true ∧ t.vLight ≠ [])) ∧
      (hw = t.hasWatermask ∨ (hw = true ∧ t.watermask ≠ [])) ∧
      (wm = t.watermask ∨
        ∃ tail, t.watermask = [none :: tail] ∧ wm = [some 0 :: tail]) := by
  rcases hc : writeCore t with e | core
  · refine ⟨t.hasLighting, t.hasWatermask, t.watermask, ?_, Or.inl rfl,
      Or.inl rfl, Or.inl rfl⟩
    rw [writeTo_parts, hc, seqSections_err_core]
  · have hw2 : (writeTo t).2 =
        (seqSections (Except.ok core) (writeLightSection t)
          (writeMaskSection (writeLightSection t).2) t).2 := by
      rw [writeTo_parts, hc]
    rcases writeLightSection_snd t with ⟨hlt, hvl⟩ | ⟨hlt, hvl⟩
    all_goals (
      rcases hmk : writeMaskSection (writeLightSection t).2 with ⟨mres, t2⟩
      have hsnd := writeMaskSection_snd (writeLightSection t).2
      rw [hmk] at hsnd
      rcases hlres : (writeLightSection t).1 with e | lt)
    -- vLight = [], light section errors (impossible result shape, still fine)
    · exact ⟨t.hasLighting, t.hasWatermask, t.watermask,
        by rw [hw2]; unfold seqSections; rw [hlres]; simp [hlt],
        Or.inl rfl, Or.inl rfl, Or.inl rfl⟩
    · have hres : (writeTo t).2 = t2 := by
        rw [hw2]
        unfold seqSections
        rw [hlres, hmk]
        rcases mres with e | mt <;> rfl
      rw [hlt] at hsnd
      rcases hsnd with ⟨h2, hwm⟩ | ⟨h2, hwm, _⟩ | ⟨tail, hwm, h2⟩
      · exact ⟨t.hasLighting, t.hasWatermask, t.watermask,
          by rw [hres]; exact h2, Or.inl rfl, Or.inl rfl, Or.inl rfl⟩
      · exact ⟨t.hasLighting, true, t.watermask,
          by rw [hres]; exact h2, Or.inl rfl, Or.inr ⟨rfl, hwm⟩, Or.inl rfl⟩
      · exact ⟨t.hasLighting, true, [some 0 :: tail],
          by rw [hres]; exact h2, Or.inl rfl,
          Or.inr ⟨rfl, by rw [hwm]; simp⟩, Or.inr ⟨tail, hwm, rfl⟩⟩
    · exact ⟨true, t.hasWatermask, t.watermask,
        by rw [hw2]; unfold seqSections; rw [hlres]; simp [hlt],
        Or.inr ⟨rfl, hvl⟩, Or.inl rfl, Or.inl rfl⟩
    · have hres : (writeTo t).2 = t2 := by
        rw [hw2]
        unfold seqSections
        rw [hlres, hmk]
        rcases mres with e | mt <;> rfl
      rw [hlt] at hsnd
      rcases hsnd with ⟨h2, hwm⟩ | ⟨h2, hwm, _⟩ | ⟨tail, hwm, h2⟩
      · exact ⟨true, t.hasWatermask, t.watermask,
          by rw [hres]; exact h2, Or.inr ⟨rfl, hvl⟩, Or.inl rfl, Or.inl rfl⟩
      · exact ⟨true, true, t.watermask,
          by rw [hres]; exact h2, Or.inr ⟨rfl, hvl⟩, Or.inr ⟨rfl, hwm⟩, Or.inl rfl⟩
      · exact ⟨true, true, [some 0 :: tail],
          by rw [hres]; exact h2, Or.inr ⟨rfl, hvl⟩,
          Or.inr ⟨rfl, by rw [hwm]; simp⟩, Or.inr ⟨tail, hwm, rfl⟩⟩

/-- A tile carrying a uniform watermask whose single byte is `None`, as the
constructor permits. -/
def c5tile : Tile := { wTile with watermask := [[none]], hasWatermask := true }

/-- C5 counterexample: serializing `c5tile` succeeds, yet the tile is
modified by the act of encoding — `_writeTo` rewrites the `None` uniform
watermask byte to 0 in place, so the after-state differs from the tile that
was passed in. -/
theorem claim_C5_counterexample :
    encodeSucceeds c5tile = true ∧ c5tile.watermask = [[none]] ∧
      (writeTo c5tile).2.watermask = [[some 0]] ∧ (writeTo c5tile).2 ≠ c5tile := by
  refine ⟨rfl, rfl, rfl, ?_⟩
  intro hcon
  have hw : (writeTo c5tile).2.watermask = c5tile.watermask := by rw [hcon]
  exact absurd hw (by decide)

/-- One axis of the edge-detection loop: append each index whose quantized
coordinate satisfies `p`, unless it is already present. -/
def edgeAxis (p : ℤ → Prop) [DecidablePred p] (acc : List ℤ) :
    List ℤ → List ℤ
  | [] => acc
  | i :: rest => edgeAxis p (if p i ∧ i ∉ acc then acc ++ [i] else acc) rest

/-- Keep the first occurrence of each element not already seen. -/
def firstDedupFrom (seen : List ℤ) : List ℤ → List ℤ
  | [] => []
  | x :: rest =>
      if x ∈ seen then firstDedupFrom seen rest
      else x :: firstDedupFrom (x :: seen) rest

/-- Keep the first occurrence of each element: the reference order for the
claim that edge lists hold unique indices in first-encountered order. -/
def firstDedup (l : List ℤ) : List ℤ := firstDedupFrom [] l

theorem pairStep (x i : ℤ) (w e : List ℤ) :
    (if x = 0 ∧ i ∉ w then (w ++ [i], e)
     else if x = 32767 ∧ i ∉ e then (w, e ++ [i]) else (w, e)) =
    ((if x = 0 ∧ i ∉ w then w ++ [i] else w),
     (if x = 32767 ∧ i ∉ e then e ++ [i] else e)) := by
  by_cases hA : x = 0 ∧ i ∉ w
  · obtain ⟨h0, _⟩ := hA
    have hB : ¬(x = 32767 ∧ i ∉ e) := by
      rintro ⟨h32, _⟩
      omega
    rw [if_pos ⟨h0, by tauto⟩, if_pos ⟨h0, by tauto⟩, if_neg hB]
  · rw [if_neg hA, if_neg hA]
    by_cases hB : x = 32767 ∧ i ∉ e
    · rw [if_pos hB, if_pos hB]
    · rw [if_neg hB, if_neg hB]

theorem edgeStep_eq (u v : List ℤ) (w s e n : List ℤ) (i : ℤ) :
    edgeStep u v (w, s, e, n) i =
      ((if u.getD i.toNat 0 = 0 ∧ i ∉ w then w ++ [i] else w),
       (if v.getD i.toNat 0 = 0 ∧ i ∉ s then s ++ [i] else s),
       (if u.getD i.toNat 0 = 32767 ∧ i ∉ e then e ++ [i] else e),
       (if v.getD i.toNat 0 = 32767 ∧ i ∉ n then n ++ [i] else n)) := by
  unfold edgeStep
  dsimp only
  rw [pairStep, pairStep]

theorem buildEdges_axes (u v : List ℤ) : ∀ (inds w s e n : List ℤ),
    List.foldl (edgeStep u v) (w, s, e, n) inds =
      (edgeAxis (fun i => u.getD i.toNat 0 = 0) w inds,
       edgeAxis (fun i => v.getD i.toNat 0 = 0) s inds,
       edgeAxis (fun i => u.getD i.toNat 0 = 32767) e inds,
       edgeAxis (fun i => v.getD i.toNat 0 = 32767) n inds) := by
  intro inds
  induction inds with
  | nil => intro w s e n; rfl
  | cons i rest ih =>
      intro w s e n
      rw [List.foldl_cons, edgeStep_eq, ih]
      rfl

theorem firstDedupFrom_congr (s1 s2 : List ℤ) (h : ∀ x, x ∈ s1 ↔ x ∈ s2) :
    ∀ l, firstDedupFrom s1 l = firstDedupFrom s2 l := by
  intro l
  induction l generalizing s1 s2 with
  | nil => rfl
  | cons x rest ih =>
      by_cases hx : x ∈ s1
      · rw [firstDedupFrom, firstDedupFrom, if_pos hx, if_pos ((h x).mp hx)]
        exact ih s1 s2 h
      · rw [firstDedupFrom, firstDedupFrom, if_neg hx,
          if_neg (fun hc => hx ((h x).mpr hc))]
        congr 1
        refine ih (x :: s1) (x :: s2) ?_
        intro z
        simp [h z]

theorem edgeAxis_eq (p : ℤ → Prop) [DecidablePred p] :
    ∀ (inds acc : List ℤ),
      edgeAxis p acc inds =
        acc ++ firstDedupFrom acc (inds.filter (fun i => decide (p i))) := by
  intro inds
  induction inds with
  | nil => intro acc; simp [edgeAxis, firstDedupFrom]
  | cons i rest ih =>
      intro acc
      rw [edgeAxis]
      by_cases hp : p i
      · by_cases hmem : i ∈ acc
        · rw [if_neg (fun hc => hc.2 hmem)]
          rw [ih acc]
          congr 1
          rw [List.filter_cons, if_pos (by simpa using hp)]
          rw [firstDedupFrom, if_pos hmem]
        · rw [if_pos ⟨hp, hmem⟩]
          rw [ih (acc ++ [i])]
          rw [List.filter_cons, if_pos (by simpa using hp)]
          rw [firstDedupFrom, if_neg hmem]
          rw [firstDedupFrom_congr (acc ++ [i]) (i :: acc) (by intro z; simp; tauto)]
          simp
      · rw [if_neg (fun hc => hp hc.1)]
        rw [ih acc]
        congr 1
        rw [List.filter_cons, if_neg (by simpa using hp)]

theorem firstDedupFrom_mem (l : List ℤ) :
    ∀ (seen : List ℤ) (x : ℤ),
      x ∈ firstDedupFrom seen l ↔ x ∈ l ∧ x ∉ seen := by
  induction l with
  | nil => intro seen x; simp [firstDedupFrom]
  | cons y rest ih =>
      intro seen x
      by_cases hy : y ∈ seen
      · rw [firstDedupFrom, if_pos hy, ih]
        constructor
        · rintro ⟨hx, hns⟩
          exact ⟨by simp [hx], hns⟩
        · rintro ⟨hx, hns⟩
          rcases List.mem_cons.mp hx with rfl | hx2
          · exact absurd hy hns
          · exact ⟨hx2, hns⟩
      · rw [firstDedupFrom, if_neg hy]
        constructor
        · intro hx
          rcases List.mem_cons.mp hx with rfl | hx2
          · exact ⟨by simp, hy⟩
          · have := (ih (y :: seen) x).mp hx2
            exact ⟨by simp [this.1], fun hc => this.2 (by simp [hc])⟩
        · rintro ⟨hx, hns⟩
          rcases List.mem_cons.mp hx with rfl | hx2
          · simp
          · by_cases hxy : x = y
            · simp [hxy]
            · refine List.mem_cons.mpr (Or.inr ?_)
              exact (ih (y :: seen) x).mpr ⟨hx2, by simp [hxy, hns]⟩

theorem firstDedupFrom_nodup (l : List ℤ) :
    ∀ seen : List ℤ, (firstDedupFrom seen l).Nodup := by
  induction l with
  | nil => intro seen; simp [firstDedupFrom]
  | cons y rest ih =>
      intro seen
      by_cases hy : y ∈ seen
      · rw [firstDedupFrom, if_pos hy]
        exact ih seen
      · rw [firstDedupFrom, if_neg hy]
        refine List.nodup_cons.mpr ⟨?_, ih (y :: seen)⟩
        intro hc
        exact ((firstDedupFrom_mem rest (y :: seen) y).mp hc).2 (by simp)

theorem firstDedup_mem (l : List ℤ) (x : ℤ) : x ∈ firstDedup l ↔ x ∈ l := by
  rw [firstDedup, firstDedupFrom_mem]
  simp

theorem firstDedup_nodup (l : List ℤ) : (firstDedup l).Nodup :=
  firstDedupFrom_nodup l []

/-- C7: after the edge-detection loop of `fromTerrainTopology`, each edge
list equals the first-occurrence deduplication of the triangle index stream
filtered by the corresponding boundary test (quantized coordinate 0 for
west/south, 32767 for east/north) — i.e. first-encountered order with each
index unique; when every vertex is referenced by some triangle, `westI`
(resp. `eastI`) contains exactly the vertex indices whose quantized
longitude is 0 (resp. 32767); and no index lies in both `westI` and
`eastI`. -/
theorem claim_C7_edges (t : Tile)
    (hall : ∀ j : ℕ, j < t.u.length → (j : ℤ) ∈ t.indices)
    (hne : t.west ≠ t.east) :
    buildEdges t.indices t.u t.v =
      (firstDedup (t.indices.filter (fun i => decide (t.u.getD i.toNat 0 = 0))),
       firstDedup (t.indices.filter (fun i => decide (t.v.getD i.toNat 0 = 0))),
       firstDedup (t.indices.filter (fun i => decide (t.u.getD i.toNat 0 = 32767))),
       firstDedup (t.indices.filter (fun i => decide (t.v.getD i.toNat 0 = 32767)))) ∧
    (buildEdges t.indices t.u t.v).1.Nodup ∧
    (buildEdges t.indices t.u t.v).2.1.Nodup ∧
    (buildEdges t.indices t.u t.v).2.2.1.Nodup ∧
    (buildEdges t.indices t.u t.v).2.2.2.Nodup ∧
    (∀ j : ℕ, j < t.u.length →
      (((j : ℤ) ∈ (buildEdges t.indices t.u t.v).1) ↔ t.u.getD j 0 = 0) ∧
      (((j : ℤ) ∈ (buildEdges t.indices t.u t.v).2.2.1) ↔
        t.u.getD j 0 = 32767)) ∧
    (∀ i : ℤ, ¬(i ∈ (buildEdges t.indices t.u t.v).1 ∧
      i ∈ (buildEdges t.indices t.u t.v).2.2.1)) := by
  have h1 : buildEdges t.indices t.u t.v =
      (firstDedup (t.indices.filter (fun i => decide (t.u.getD i.toNat 0 = 0))),
       firstDedup (t.indices.filter (fun i => decide (t.v.getD i.toNat 0 = 0))),
       firstDedup (t.indices.filter (fun i => decide (t.u.getD i.toNat 0 = 32767))),
       firstDedup (t.indices.filter (fun i => decide (t.v.getD i.toNat 0 = 32767)))) := by
    rw [buildEdges, buildEdges_axes, edgeAxis_eq, edgeAxis_eq, edgeAxis_eq,
      edgeAxis_eq]
    rfl
  refine ⟨h1, by rw [h1]; exact firstDedup_nodup _,
    by rw [h1]; exact firstDedup_nodup _,
    by rw [h1]; exact firstDedup_nodup _,
    by rw [h1]; exact firstDedup_nodup _, ?_, ?_⟩
  · intro j hj
    rw [h1]
    constructor
    · show (j : ℤ) ∈ firstDedup _ ↔ _
      rw [firstDedup_mem, List.mem_filter]
      simp only [decide_eq_true_eq, Int.toNat_natCast]
      constructor
      · exact fun h => h.2
      · exact fun h => ⟨hall j hj, h⟩
    · show (j : ℤ) ∈ firstDedup _ ↔ _
      rw [firstDedup_mem, List.mem_filter]
      simp only [decide_eq_true_eq, Int.toNat_natCast]
      constructor
      · exact fun h => h.2
      · exact fun h => ⟨hall j hj, h⟩
  · intro i hcon
    rw [h1] at hcon
    obtain ⟨hw, he⟩ := hcon
    rw [firstDedup_mem, List.mem_filter] at hw he
    simp only [decide_eq_true_eq] at hw he
    omega

theorem claim_C7_edges_witness :
    (∀ j : ℕ, j < wTile.u.length → (j : ℤ) ∈ wTile.indices) ∧
      wTile.west ≠ wTile.east ∧
      (buildEdges wTile.indices wTile.u wTile.v =
        (firstDedup (wTile.indices.filter
          (fun i => decide (wTile.u.getD i.toNat 0 = 0))),
         firstDedup (wTile.indices.filter
          (fun i => decide (wTile.v.getD i.toNat 0 = 0))),
         firstDedup (wTile.indices.filter
          (fun i => decide (wTile.u.getD i.toNat 0 = 32767))),
         firstDedup (wTile.indices.filter
          (fun i => decide (wTile.v.getD i.toNat 0 = 32767)))) ∧
       (buildEdges wTile.indices wTile.u wTile.v).1.Nodup ∧
       (buildEdges wTile.indices wTile.u wTile.v).2.1.Nodup ∧
       (buildEdges wTile.indices wTile.u wTile.v).2.2.1.Nodup ∧
       (buildEdges wTile.indices wTile.u wTile.v).2.2.2.Nodup ∧
       (∀ j : ℕ, j < wTile.u.length →
         (((j : ℤ) ∈ (buildEdges wTile.indices wTile.u wTile.v).1) ↔
           wTile.u.getD j 0 = 0) ∧
         (((j : ℤ) ∈ (buildEdges wTile.indices wTile.u wTile.v).2.2.1) ↔
           wTile.u.getD j 0 = 32767)) ∧
       (∀ i : ℤ, ¬(i ∈ (buildEdges wTile.indices wTile.u wTile.v).1 ∧
         i ∈ (buildEdges wTile.indices wTile.u wTile.v).2.2.1))) :=
  ⟨by decide, by decide,
   claim_C7_edges wTile (by decide) (by decide)⟩

/-- A full 256 x 256 uniform-value grid watermask variant of the witness
tile. -/
def wTileGrid : Tile :=
  { wTile with
    watermask := List.replicate 256 (List.replicate 256 (some 3))
    hasWatermask := true }

theorem claim_C8_watermask_witness :
    (∃ toks t', (writeTo wTileUniform).1 = .ok toks ∧
        fromBytesStream toks false true freshTile = .ok (t', []) ∧
        t'.watermask = [[some 7]]) ∧
    (∃ toks t', (writeTo wTileGrid).1 = .ok toks ∧
        fromBytesStream toks false true freshTile = .ok (t', []) ∧
        t'.watermask = wTileGrid.watermask) := by
  constructor
  · exact (claim_C8_watermask wTileUniform (by unfold ValidCore; decide)
      (by decide) (by decide)).1 7 (by decide) (by decide) rfl
  · refine (claim_C8_watermask wTileGrid (by unfold ValidCore; decide)
      (by decide) (by decide)).2 ?_
      (by rw [show wTileGrid.watermask =
          List.replicate 256 (List.replicate 256 (some 3)) from rfl,
        List.length_replicate])
    intro row hrow
    have hr : row = List.replicate 256 (some 3) :=
      List.eq_of_mem_replicate hrow
    subst hr
    refine ⟨by rw [List.length_replicate], ?_⟩
    intro y hy
    have hv : y = some 3 := List.eq_of_mem_replicate hy
    subst hv
    rfl

theorem packKey_i32_tc (v : ℤ) :
    packKey indexData32 .triangleCount v = packEntry .I v := rfl

theorem packKeyList_i32 (xs : List ℤ) :
    packKeyList indexData32 .indicesKey xs = packPlainList .I xs := rfl

theorem packKey_e32_wc (v : ℤ) :
    packKey EdgeIndices32 .westVertexCount v = packEntry .I v := rfl

theorem packKey_e32_sc (v : ℤ) :
    packKey EdgeIndices32 .southVertexCount v = packEntry .I v := rfl

theorem packKey_e32_ec (v : ℤ) :
    packKey EdgeIndices32 .eastVertexCount v = packEntry .I v := rfl

theorem packKey_e32_nc (v : ℤ) :
    packKey EdgeIndices32 .northVertexCount v = packEntry .I v := rfl

theorem packKeyList_e32_w (xs : List ℤ) :
    packKeyList EdgeIndices32 .westIndices xs = packPlainList .I xs := rfl

theorem packKeyList_e32_s (xs : List ℤ) :
    packKeyList EdgeIndices32 .southIndices xs = packPlainList .I xs := rfl

theorem packKeyList_e32_e (xs : List ℤ) :
    packKeyList EdgeIndices32 .eastIndices xs = packPlainList .I xs := rfl

theorem packKeyList_e32_n (xs : List ℤ) :
    packKeyList EdgeIndices32 .northIndices xs = packPlainList .I xs := rfl

theorem unpackKey_i32_tc (s : List Token) :
    unpackKey indexData32 .triangleCount s = unpackInt .I s := rfl

theorem readKeyList_i32 (s : List Token) (n : ℕ) :
    readKeyList indexData32 .indicesKey s n = readPlainList .I s n := rfl

theorem unpackKey_i32_wc (s : List Token) :
    unpackKey indexData32 .westVertexCount s = .error .keyError := rfl

/-- The wide-width regime of the codec: a structurally valid tile whose
vertex count exceeds `BYTESPLIT` serializes successfully with 32-bit index
words throughout (`indexData32` and `EdgeIndices32`), but parsing the
result always raises `KeyError`: the decoder selects `indexData32` — not
`EdgeIndices32` — as the edge schema (terrain.py line 362), and that
schema has no `westVertexCount` entry. -/
theorem writeCore_read_wide (t : Tile) (hc : ValidCore t)
    (hwide : (t.u.length : ℤ) > BYTESPLIT)
    (hn32 : (t.u.length : ℤ) < 4294967296) :
    ∃ toks, writeCore t = .ok toks ∧
      ∀ r, readCore (toks ++ r) = .error .keyError := by
  obtain ⟨hne, hvl, hhl, hu, hv, hh, hmod, hhwm, hilt, hilen,
    hw, hs, he, hn4, hwlen, hslen, helen, hnlen⟩ := hc
  set n := t.u.length with hndef
  have hvc : packEntry .I (n : ℤ) = .ok (.int .I (n : ℤ)) :=
    packEntry_ok _ _ (by omega) (by simp only [intMax_I]; omega)
  obtain ⟨uT, huok, huread⟩ := packVertexStream_read t.u hne hu
  have hnpos : 0 < n := List.length_pos.mpr hne
  have hvne : t.v ≠ [] := by
    intro hcon
    rw [hcon] at hvl
    simp at hvl
    omega
  have hhne : t.h ≠ [] := by
    intro hcon
    rw [hcon] at hhl
    simp at hhl
    omega
  obtain ⟨vT, hvok, hvread⟩ := packVertexStream_read t.v hvne hv
  obtain ⟨hT, hhok, hhread⟩ := packVertexStream_read t.h hhne hh
  rw [hvl] at hvok hvread
  rw [hhl] at hhok hhread
  have htc : packEntry .I ((t.indices.length / 3 : ℕ) : ℤ) =
      .ok (.int .I ((t.indices.length / 3 : ℕ) : ℤ)) := by
    refine packEntry_ok _ _ (by omega) ?_
    simp only [intMax_I]
    have : (t.indices.length / 3 : ℕ) ≤ t.indices.length := Nat.div_le_self _ _
    omega
  have hcodes : ∀ c ∈ encodeIndices t.indices, 0 ≤ c ∧ c < intMax .I := by
    intro c hcmem
    have := hwm_codes_bounded t.indices 0 (n : ℤ) hhwm hilt (by omega) c hcmem
    simp only [intMax_I]
    omega
  obtain ⟨codesT, hcok, hcread⟩ := packPlainList_read .I _ hcodes
  have hclen : (encodeIndices t.indices).length = t.indices.length :=
    encodeIndicesFrom_length t.indices 0
  have hedge : ∀ l : List ℤ, (∀ j ∈ l, 0 ≤ j ∧ j < (n : ℤ)) →
      ∀ j ∈ l, 0 ≤ j ∧ j < intMax .I := by
    intro l hl j hj
    have := hl j hj
    simp only [intMax_I]
    omega
  obtain ⟨wT, hwok, _⟩ := packPlainList_read .I t.westI (hedge _ hw)
  obtain ⟨sT, hsok, _⟩ := packPlainList_read .I t.southI (hedge _ hs)
  obtain ⟨eT, heok, _⟩ := packPlainList_read .I t.eastI (hedge _ he)
  obtain ⟨nT, hnok, _⟩ := packPlainList_read .I t.northI (hedge _ hn4)
  have hwc : packEntry .I (t.westI.length : ℤ) = .ok (.int .I (t.westI.length : ℤ)) :=
    packEntry_ok _ _ (by omega) (by simp only [intMax_I]; omega)
  have hsc : packEntry .I (t.southI.length : ℤ) = .ok (.int .I (t.southI.length : ℤ)) :=
    packEntry_ok _ _ (by omega) (by simp only [intMax_I]; omega)
  have hec : packEntry .I (t.eastI.length : ℤ) = .ok (.int .I (t.eastI.length : ℤ)) :=
    packEntry_ok _ _ (by omega) (by simp only [intMax_I]; omega)
  have hnc : packEntry .I (t.northI.length : ℤ) = .ok (.int .I (t.northI.length : ℤ)) :=
    packEntry_ok _ _ (by omega) (by simp only [intMax_I]; omega)
  refine ⟨headerTokens t.header ++ .int .I (n : ℤ) ::
      (uT ++ vT ++ hT ++ .int .I ((t.indices.length / 3 : ℕ) : ℤ) :: codesT ++
       .int .I (t.westI.length : ℤ) :: wT ++ .int .I (t.southI.length : ℤ) :: sT ++
       .int .I (t.eastI.length : ℤ) :: eT ++ .int .I (t.northI.length : ℤ) :: nT),
    ?_, ?_⟩
  · simp only [writeCore, ← hndef, if_pos hwide, packKey_i32_tc, packKeyList_i32,
      packKey_e32_wc, packKey_e32_sc, packKey_e32_ec, packKey_e32_nc,
      packKeyList_e32_w, packKeyList_e32_s, packKeyList_e32_e, packKeyList_e32_n,
      hvc, huok, hvok, hhok, htc, hcok, hwc, hwok, hsc, hsok,
      hec, heok, hnc, hnok, exceptBind_ok, exceptPure]
  · intro r
    have htoNat : ((n : ℤ)).toNat = n := Int.toNat_natCast n
    have hcodeslen : t.indices.length / 3 * 3 =
        (encodeIndices t.indices).length := by
      rw [hclen]
      exact Nat.div_mul_cancel (Nat.dvd_of_mod_eq_zero hmod)
    simp only [readCore, List.append_assoc, List.cons_append, readHeader_of_tokens,
      if_pos hwide, unpackKey_i32_tc, readKeyList_i32, unpackKey_i32_wc,
      unpackInt_cons, exceptBind_ok, exceptBind_err, htoNat, hcodeslen,
      huread, hvread, hhread, hcread, Int.toNat_natCast]

/-- The ascending index ramp `hi, hi+1, ..., hi+k-1` — the index pattern a
topology produces when every triangle corner introduces a new vertex. -/
def rampFrom (hi : ℤ) : ℕ → List ℤ
  | 0 => []
  | k + 1 => hi :: rampFrom (hi + 1) k

theorem rampFrom_length (k : ℕ) : ∀ hi : ℤ, (rampFrom hi k).length = k := by
  induction k with
  | zero => intro hi; rfl
  | succ m ih =>
      intro hi
      simp only [rampFrom, List.length_cons, ih]

theorem rampFrom_mem (k : ℕ) :
    ∀ hi : ℤ, ∀ i ∈ rampFrom hi k, hi ≤ i ∧ i < hi + k := by
  induction k with
  | zero => intro hi i hi2; simp [rampFrom] at hi2
  | succ m ih =>
      intro hi i hi2
      rcases List.mem_cons.mp hi2 with rfl | hmem
      · omega
      · have := ih (hi + 1) i hmem
        push_cast at this ⊢
        omega

theorem encodeIndicesFrom_ramp (k : ℕ) :
    ∀ (hi : ℤ) (rest : List ℤ),
      encodeIndicesFrom hi (rampFrom hi k ++ rest) =
        List.replicate k 0 ++ encodeIndicesFrom (hi + k) rest := by
  induction k with
  | zero => intro hi rest; simp [rampFrom]
  | succ m ih =>
      intro hi rest
      simp only [rampFrom, List.cons_append, encodeIndicesFrom, sub_self,
        if_pos rfl, if_true, List.replicate, List.cons.injEq, true_and,
        List.append_eq]
      rw [ih (hi + 1) rest]
      congr 2
      push_cast
      ring

theorem hwmChkFrom_ramp (k : ℕ) :
    ∀ (hi : ℤ) (rest : List ℤ), 0 ≤ hi →
      hwmChkFrom hi (rampFrom hi k ++ rest) = hwmChkFrom (hi + k) rest := by
  induction k with
  | zero => intro hi rest _; simp [rampFrom]
  | succ m ih =>
      intro hi rest h0
      simp only [rampFrom, List.cons_append, hwmChkFrom, sub_self, if_pos rfl,
        if_true, List.append_eq]
      rw [decide_eq_true h0, decide_eq_true (le_refl hi)]
      simp only [Bool.true_and]
      rw [ih (hi + 1) rest (by omega)]
      congr 1
      push_cast
      ring

theorem packDeltas_zero (k : ℕ) :
    packDeltas k 0 (List.replicate k 0) = .ok (List.replicate k (.int .H 0)) := by
  induction k with
  | zero => rfl
  | succ m ih =>
      have hz : zigZagEncode ((0 : ℤ) - 0) = 0 := rfl
      simp only [List.replicate, packDeltas, hz,
        packEntry_ok .H 0 (by omega) (by simp only [intMax_H]; omega),
        ih, exceptBind_ok, exceptPure]

theorem packVertexStream_zero (n : ℕ) (hn : n ≠ 0) :
    packVertexStream n (List.replicate n 0) =
      .ok (List.replicate n (.int .H 0)) := by
  obtain ⟨m, rfl⟩ : ∃ m, n = m + 1 := by
    cases n with
    | zero => exact absurd rfl hn
    | succ m => exact ⟨m, rfl⟩
  have hz : zigZagEncode (0 : ℤ) = 0 := rfl
  simp only [List.replicate, packVertexStream, hz, Nat.add_sub_cancel,
    packEntry_ok .H 0 (by omega) (by simp only [intMax_H]; omega),
    packDeltas_zero, exceptBind_ok, exceptPure]

/-- The tile of the C1 failing input: 65637 vertices (beyond `BYTESPLIT`,
hence 32-bit index width), one degenerate triangle, no edge lists, no
extensions. -/
def c1tile : Tile :=
  { freshTile with
    u := List.replicate 65637 0
    v := List.replicate 65637 0
    h := List.replicate 65637 0
    indices := [0, 0, 0] }

/-- The tile of the C2 counterexample: 65636 vertices (at the threshold,
hence 16-bit index width), and a triangle list that first references every
vertex in ascending order and then re-references vertex 0, forcing the
final high-water-mark code to the value 65636, which does not fit a 16-bit
word. -/
def c2tile : Tile :=
  { freshTile with
    u := List.replicate 65636 0
    v := List.replicate 65636 0
    h := List.replicate 65636 0
    indices := rampFrom 0 65636 ++ [0] }

theorem replicate_zero_bounds (k : ℕ) :
    ∀ x ∈ List.replicate k (0 : ℤ), 0 ≤ x ∧ x ≤ 32767 := by
  intro x hx
  have := List.eq_of_mem_replicate hx
  omega

theorem c1tile_valid : ValidCore c1tile := by
  have hrep : ∀ x ∈ List.replicate 65637 (0 : ℤ), 0 ≤ x ∧ x ≤ 32767 :=
    replicate_zero_bounds 65637
  have hlen : c1tile.u.length = 65637 := List.length_replicate 65637 0
  refine ⟨?_, ?_, ?_, hrep, hrep, hrep, ?_, ?_, ?_, ?_, ?_, ?_, ?_, ?_,
    ?_, ?_, ?_, ?_⟩
  · intro hcon
    rw [hcon] at hlen
    simp at hlen
  · rfl
  · rfl
  · rfl
  · rfl
  · intro i hi
    have hilist : i ∈ ([0, 0, 0] : List ℤ) := hi
    simp at hilist
    rw [hlen]
    omega
  · rw [show c1tile.indices.length = 3 from rfl]
    norm_num
  · intro j hj
    exact absurd (hj : j ∈ ([] : List ℤ)) (List.not_mem_nil j)
  · intro j hj
    exact absurd (hj : j ∈ ([] : List ℤ)) (List.not_mem_nil j)
  · intro j hj
    exact absurd (hj : j ∈ ([] : List ℤ)) (List.not_mem_nil j)
  · intro j hj
    exact absurd (hj : j ∈ ([] : List ℤ)) (List.not_mem_nil j)
  · show ((List.length ([] : List ℤ) : ℤ)) < 4294967296
    norm_num
  · show ((List.length ([] : List ℤ) : ℤ)) < 4294967296
    norm_num
  · show ((List.length ([] : List ℤ) : ℤ)) < 4294967296
    norm_num
  · show ((List.length ([] : List ℤ) : ℤ)) < 4294967296
    norm_num

theorem c2tile_indices_eq : c2tile.indices = rampFrom 0 65636 ++ [0] := rfl

theorem c2tile_indices_length : c2tile.indices.length = 65637 := by
  rw [c2tile_indices_eq, List.length_append, rampFrom_length]
  rfl

theorem c2tile_valid : ValidCore c2tile := by
  have hrep : ∀ x ∈ List.replicate 65636 (0 : ℤ), 0 ≤ x ∧ x ≤ 32767 :=
    replicate_zero_bounds 65636
  have hlen : c2tile.u.length = 65636 := List.length_replicate 65636 0
  refine ⟨?_, ?_, ?_, hrep, hrep, hrep, ?_, ?_, ?_, ?_, ?_, ?_, ?_, ?_,
    ?_, ?_, ?_, ?_⟩
  · intro hcon
    rw [hcon] at hlen
    simp at hlen
  · rfl
  · rfl
  · rw [c2tile_indices_length]
  · show hwmChk (rampFrom 0 65636 ++ [0]) = true
    rw [hwmChk, hwmChkFrom_ramp 65636 0 [0] (le_refl 0)]
    rfl
  · intro i hi
    rw [hlen]
    have hi2 : i ∈ rampFrom 0 65636 ++ [0] := hi
    rcases List.mem_append.mp hi2 with hl | hr
    · have := rampFrom_mem 65636 0 i hl
      push_cast at this ⊢
      omega
    · have : i = 0 := by simpa using hr
      omega
  · rw [c2tile_indices_length]
    norm_num
  · intro j hj
    exact absurd (hj : j ∈ ([] : List ℤ)) (List.not_mem_nil j)
  · intro j hj
    exact absurd (hj : j ∈ ([] : List ℤ)) (List.not_mem_nil j)
  · intro j hj
    exact absurd (hj : j ∈ ([] : List ℤ)) (List.not_mem_nil j)
  · intro j hj
    exact absurd (hj : j ∈ ([] : List ℤ)) (List.not_mem_nil j)
  · show ((List.length ([] : List ℤ) : ℤ)) < 4294967296
    norm_num
  · show ((List.length ([] : List ℤ) : ℤ)) < 4294967296
    norm_num
  · show ((List.length ([] : List ℤ) : ℤ)) < 4294967296
    norm_num
  · show ((List.length ([] : List ℤ) : ℤ)) < 4294967296
    norm_num

/-- C1: evaluation at the failing input.  A valid tile with 65637 vertices
(beyond `BYTESPLIT`) serializes successfully — `_writeTo` applies the
32-bit width uniformly to the triangle block and all four edge blocks —
but decoding its own output raises `KeyError`: `fromBytesIO` selects
`indexData32` instead of `EdgeIndices32` as the edge schema (line 362), so
the width is not applied to the edge blocks on the decode side. -/
theorem claim_C1_width_bug :
    ∃ toks, (writeTo c1tile).1 = .ok toks ∧
      fromBytesStream toks false false freshTile = .error .keyError := by
  have hwide : (c1tile.u.length : ℤ) > BYTESPLIT := by
    rw [show c1tile.u.length = 65637 from List.length_replicate 65637 0,
      BYTESPLIT_eq]
    norm_num
  have hn32 : (c1tile.u.length : ℤ) < 4294967296 := by
    rw [show c1tile.u.length = 65637 from List.length_replicate 65637 0]
    norm_num
  obtain ⟨coreT, hcok, hcread⟩ := writeCore_read_wide c1tile c1tile_valid
    hwide hn32
  have hlightsec := writeLightSection_empty c1tile rfl
  have hmsec := writeMaskSection_empty c1tile rfl
  have hok : (writeTo c1tile).1 = .ok (coreT ++ [] ++ []) := by
    rw [writeTo_parts, hcok, hlightsec]
    rw [show ((Except.ok [] : Except Err (List Token)), c1tile).2 = c1tile
      from rfl, hmsec]
    rw [seqSections_ok]
  refine ⟨coreT ++ [] ++ [], hok, ?_⟩
  have hread := hcread []
  rw [List.append_nil] at hread
  simp only [List.append_nil, fromBytesStream, hread, exceptBind_err]

theorem writeCore_c2_err : writeCore c2tile = .error .structError := by
  have hBS : ¬ ((c2tile.u.length : ℤ) > BYTESPLIT) := by
    rw [show c2tile.u.length = 65636 from List.length_replicate 65636 0,
      BYTESPLIT_eq]
    norm_num
  have hvc : packEntry .I (c2tile.u.length : ℤ) =
      .ok (.int .I (c2tile.u.length : ℤ)) :=
    packEntry_ok _ _ (by omega)
      (by rw [show c2tile.u.length = 65636 from List.length_replicate 65636 0]
          simp only [intMax_I]
          norm_num)
  have hlen : c2tile.u.length = 65636 := List.length_replicate 65636 0
  have hu0 := packVertexStream_zero 65636 (by norm_num)
  have hu : packVertexStream c2tile.u.length c2tile.u =
      .ok (List.replicate 65636 (.int .H 0)) := by
    rw [hlen]
    exact hu0
  have hv : packVertexStream c2tile.u.length c2tile.v =
      .ok (List.replicate 65636 (.int .H 0)) := by
    rw [hlen]
    exact hu0
  have hh : packVertexStream c2tile.u.length c2tile.h =
      .ok (List.replicate 65636 (.int .H 0)) := by
    rw [hlen]
    exact hu0
  have htc : packEntry .I ((c2tile.indices.length / 3 : ℕ) : ℤ) =
      .ok (.int .I ((c2tile.indices.length / 3 : ℕ) : ℤ)) :=
    packEntry_ok _ _ (by omega)
      (by rw [c2tile_indices_length]
          simp only [intMax_I]
          norm_num)
  have henc : encodeIndices c2tile.indices =
      List.replicate 65636 0 ++ [(65636 : ℤ)] := by
    rw [c2tile_indices_eq, encodeIndices, encodeIndicesFrom_ramp]
    norm_num [encodeIndicesFrom]
  have hcerr : packKeyList indexData16 .indicesKey
      (encodeIndices c2tile.indices) = .error .structError := by
    rw [packKeyList_i16, henc]
    refine packPlainList_append_bad .H _ _ _ ?_ ?_
    · intro x hx
      have := List.eq_of_mem_replicate hx
      simp only [intMax_H]
      omega
    · simp only [intMax_H]
      omega
  simp only [writeCore, if_neg hBS, packKey_i16_tc, hvc, hu, hv, hh, htc,
    hcerr, exceptBind_ok, exceptBind_err]

/-- C2 counterexample: the claim as stated fails on the code.  `c2tile` is
structurally valid (a non-empty valid topology: 65636 vertices, triangle
indices in high-water-mark order, all in range), yet encoding it raises
`struct.error` — the vertex count is at the `BYTESPLIT` threshold so the
16-bit index width is selected, and the final high-water-mark code 65636
does not fit a 16-bit word — so decode(encode(tile)) reproduces nothing. -/
theorem claim_C2_counterexample :
    ValidCore c2tile ∧ c2tile.u ≠ [] ∧
      (writeTo c2tile).1 = .error .structError := by
  refine ⟨c2tile_valid, ?_, ?_⟩
  · intro hcon
    have hlen : c2tile.u.length = 65636 := List.length_replicate 65636 0
    rw [hcon] at hlen
    simp at hlen
  · rw [writeTo_parts, writeCore_c2_err, seqSections_err_core]

end QmTile
